import Mathlib

/-!
Verification development for a small Python chess engine
(files `Board.py`, `Pieces.py`, `AI_player.py`, `Game.py`).

The engine is shallowly embedded: the mutable Python objects (Board, the
Piece objects aliased from both the grid and the per-side piece lists, and
Move records) become explicit state.  Piece objects have identity, so they
are modelled by numeric ids (`PieceId`); the piece store `Board.pieceData`
maps an id to the piece's mutable attributes (player, current behaviour
kind, position).  The grid stores ids, mirroring how the Python grid stores
object references.  Captured pieces stay in the store (the Python objects
stay alive, owned by the Move record) but leave the grid and the per-side
collections.  `make_move` and `unmake_move` return the updated Move as well,
since Python mutates `move.pawn_change` in place.
-/

set_option maxHeartbeats 1000000

abbrev Pos := Int × Int
abbrev PieceId := Nat

inductive Player where
  | white
  | black
deriving DecidableEq, Repr

def otherPlayer : Player → Player
  | .white => .black
  | .black => .white

inductive PieceKind where
  | pawn
  | knight
  | bishop
  | rook
  | queen
  | king
deriving DecidableEq, Repr

/-- Mutable attributes of one Python `Piece` object: its (fixed) colour, its
current `piece_behavior` kind (mutated on promotion) and its `position`. -/
structure PieceSt where
  player : Player
  kind : PieceKind
  pos : Pos
deriving DecidableEq, Repr

/-- Values carried by the `Piece_Behavior` subclasses in `Pieces.py`:
pawn 2, knight 6, bishop 6, rook 10, queen 18, king 200. -/
def kindValue : PieceKind → Int
  | .pawn => 2
  | .knight => 6
  | .bishop => 6
  | .rook => 10
  | .queen => 18
  | .king => 200

/-- The `value` attribute: positive for white, negated for black. -/
def pieceValue (d : PieceSt) : Int :=
  match d.player with
  | .white => kindValue d.kind
  | .black => - kindValue d.kind

/-- A Python `Move` record.  `origin = none` is the null move `Move()`.
The Python field `score_change` is carried separately (as an exact rational)
by the search functions below, since it is written only by the AI. -/
structure Move where
  origin : Option Pos := none
  origin_piece : Option PieceId := none
  destination : Option Pos := none
  destination_piece : Option PieceId := none
  pawn_change : Bool := false
deriving DecidableEq, Repr

/-- The Board state: grid (squares to piece references), the piece store,
`score`, `num_pieces`, the two collections `pieces["white"]`/`pieces["black"]`
(order = Python list order), and the `kings` dictionary. -/
structure Board where
  grid : Pos → Option PieceId
  pieceData : PieceId → PieceSt
  score : Int
  num_pieces : Int
  pieces : Player → List PieceId
  kings : Player → PieceId

/-- Pointwise update of the `pieces` dictionary at one colour. -/
def piecesSet (f : Player → List PieceId) (pl : Player) (l : List PieceId) :
    Player → List PieceId :=
  fun x => if x = pl then l else f x

/-- Python method `Board._inbounds`. -/
def inbounds (p : Pos) : Bool :=
  if p.1 < 0 then false
  else if 7 < p.1 then false
  else if p.2 < 0 then false
  else if 7 < p.2 then false
  else true

def gridSet (g : Pos → Option PieceId) (p : Pos) (v : Option PieceId) :
    Pos → Option PieceId :=
  fun q => if q = p then v else g q

def dataSet (f : PieceId → PieceSt) (i : PieceId) (v : PieceSt) :
    PieceId → PieceSt :=
  fun j => if j = i then v else f j

/-- A sliding ray: vectors `(v.1 * i, v.2 * i)` for `i = 1, ..., 7`,
as built by the loops in `Rook_Behavior` / `Bishop_Behavior` /
`Queen_Behavior`. -/
def ray (v : Pos) : List Pos :=
  (List.range 7).map fun (i : Nat) => (v.1 * ((i : Int) + 1), v.2 * ((i : Int) + 1))

/-- The `directions` attribute of each `Piece_Behavior` subclass, in source
order.  Only the pawn's directions depend on the colour. -/
def pieceDirections : PieceKind → Player → List (List Pos)
  | .rook, _ => [ray (1, 0), ray (-1, 0), ray (0, 1), ray (0, -1)]
  | .knight, _ =>
      [[(-2, -1)], [(-2, 1)], [(2, -1)], [(2, 1)],
       [(-1, -2)], [(-1, 2)], [(1, -2)], [(1, 2)]]
  | .bishop, _ => [ray (1, 1), ray (1, -1), ray (-1, 1), ray (-1, -1)]
  | .queen, _ =>
      [ray (1, 0), ray (-1, 0), ray (0, 1), ray (0, -1),
       ray (1, 1), ray (1, -1), ray (-1, 1), ray (-1, -1)]
  | .king, _ =>
      [[(1, 1)], [(1, 0)], [(1, -1)], [(0, -1)],
       [(-1, -1)], [(-1, 0)], [(-1, 1)], [(0, 1)]]
  | .pawn, .white => [[(-1, 1)], [(0, 1), (0, 2)], [(1, 1)]]
  | .pawn, .black => [[(-1, -1)], [(0, -1), (0, -2)], [(1, -1)]]

/-- Python methods `Piece_Behavior._is_valid_move` and `Pawn_Behavior._is_valid_move`.
`selfKind` is the kind of the behaviour object the walk belongs to (the
dispatch), `curPos` is `current_piece.position`, `otherEmpty` states whether
`other_piece` is the `"empty"` sentinel. -/
def is_valid_move (selfKind : PieceKind) (v : Pos) (curPos : Pos)
    (otherEmpty : Bool) : Bool :=
  match selfKind with
  | .pawn =>
      if v.1 = 0 ∧ otherEmpty = false then false
      else if ¬ v.1 = 0 ∧ otherEmpty = true then false
      else if v.2 = 2 ∧ ¬ curPos.2 = 1 then false
      else if v.2 = -2 ∧ ¬ curPos.2 = 6 then false
      else true
  | _ => true

/-- The inner loop of `Piece_Behavior.get_moves` over one direction:
stop on out-of-bounds, stop before a friendly piece, stop on an invalid
vector, emit the move, and stop after emitting a capture. -/
def walkDir (b : Board) (selfKind : PieceKind) (pos : Pos) (cur : PieceId) :
    List Pos → List Move
  | [] => []
  | v :: rest =>
    let np : Pos := (pos.1 + v.1, pos.2 + v.2)
    if inbounds np = false then []
    else
      match b.grid np with
      | some q =>
          if (b.pieceData q).player = (b.pieceData cur).player then []
          else if is_valid_move selfKind v (b.pieceData cur).pos false = false then []
          else [{ origin := some pos, origin_piece := some cur,
                  destination := some np, destination_piece := some q }]
      | none =>
          if is_valid_move selfKind v (b.pieceData cur).pos true = false then []
          else
            { origin := some pos, origin_piece := some cur,
              destination := some np, destination_piece := none } ::
              walkDir b selfKind pos cur rest

/-- Python method `Piece.get_moves` (delegating to `Piece_Behavior.get_moves`): the
directions come from the piece's own behaviour; `current_piece` is read from
the grid at the piece's position.  If that square is empty the Python code
would raise; this never happens on consistent boards and is modelled as no
moves. -/
def get_moves (b : Board) (pid : PieceId) : List Move :=
  match b.grid (b.pieceData pid).pos with
  | none => []
  | some cur =>
      (pieceDirections (b.pieceData pid).kind (b.pieceData pid).player).flatMap
        (walkDir b (b.pieceData pid).kind (b.pieceData pid).pos cur)

/-- Python method `Board.make_move`.  Returns the updated board and the updated move
(Python mutates `move.pawn_change` in place).  A null move (no origin) would
raise in Python and is modelled as a no-op; it is never applied. -/
def make_move (b : Board) (m : Move) : Board × Move :=
  match m.origin, m.destination, m.origin_piece with
  | some o, some d, some opid =>
    let g := gridSet (gridSet b.grid o none) d (some opid)
    let od := b.pieceData opid
    let data1 := dataSet b.pieceData opid { od with pos := d }
    let b1 :=
      match m.destination_piece with
      | some qid =>
          let qd := b.pieceData qid
          { b with grid := g, pieceData := data1,
                   score := b.score - pieceValue qd,
                   num_pieces := b.num_pieces - 1,
                   pieces := piecesSet b.pieces qd.player ((b.pieces qd.player).erase qid) }
      | none => { b with grid := g, pieceData := data1 }
    if od.kind = .pawn ∧ od.player = .white ∧ d.2 = 7 then
      ({ b1 with pieceData := dataSet b1.pieceData opid { od with pos := d, kind := .queen },
                 score := b1.score + 16 },
       { m with pawn_change := true })
    else if od.kind = .pawn ∧ od.player = .black ∧ d.2 = 0 then
      ({ b1 with pieceData := dataSet b1.pieceData opid { od with pos := d, kind := .queen },
                 score := b1.score - 16 },
       { m with pawn_change := true })
    else (b1, m)
  | _, _, _ => (b, m)

/-- Python method `Board.unmake_move`.  The captured piece (if any) is appended at the end
of its side's collection, exactly as `list.append` does in Python. -/
def unmake_move (b : Board) (m : Move) : Board × Move :=
  match m.origin, m.destination, m.origin_piece with
  | some o, some d, some opid =>
    let g1 := gridSet b.grid o (some opid)
    let b1 :=
      match m.destination_piece with
      | some qid =>
          let qd := b.pieceData qid
          { b with grid := gridSet g1 d (some qid),
                   score := b.score + pieceValue qd,
                   num_pieces := b.num_pieces + 1,
                   pieces := piecesSet b.pieces qd.player (b.pieces qd.player ++ [qid]) }
      | none => { b with grid := gridSet g1 d none }
    let od := b1.pieceData opid
    let b2 := { b1 with pieceData := dataSet b1.pieceData opid { od with pos := o } }
    if m.pawn_change = true then
      let od2 := b2.pieceData opid
      (({ b2 with pieceData := dataSet b2.pieceData opid { od2 with kind := .pawn },
                  score := if od2.player = .white then b2.score - 16 else b2.score + 16 }),
       { m with pawn_change := false })
    else (b2, m)
  | _, _, _ => (b, m)

/-- Loop counter values `range(1, 8)` of the corridor and diagonal scans in
`Board.check_check`. -/
def steps7 : List Int := [1, 2, 3, 4, 5, 6, 7]

/-- One corridor or diagonal scan of `Board.check_check`: walk outward from
the king, stop (returning `false`) on out-of-bounds, and at the first piece
report whether it is an enemy of one of the attacking kinds. -/
def rayScan (b : Board) (pl : Player) (k : Pos) (v : Pos)
    (kinds : List PieceKind) : List Int → Bool
  | [] => false
  | i :: rest =>
    let np : Pos := (k.1 + v.1 * i, k.2 + v.2 * i)
    if inbounds np = false then false
    else
      match b.grid np with
      | none => rayScan b pl k v kinds rest
      | some q =>
          decide (¬ (b.pieceData q).player = pl ∧ (b.pieceData q).kind ∈ kinds)

/-- The knight and king offset loops of `Board.check_check`: the Python
loop uses `break` both on out-of-bounds and on any occupied square, which
aborts the whole scan, not just the current offset. -/
def offsetScanBreak (b : Board) (pl : Player) (k : Pos) (kind : PieceKind) :
    List Pos → Bool
  | [] => false
  | v :: rest =>
    let np : Pos := (k.1 + v.1, k.2 + v.2)
    if inbounds np = false then false
    else
      match b.grid np with
      | none => offsetScanBreak b pl k kind rest
      | some q =>
          decide (¬ (b.pieceData q).player = pl ∧ (b.pieceData q).kind = kind)

/-- The pawn loop of `Board.check_check`: `continue` (not `break`) on
out-of-bounds, and no early abort on a non-matching occupant. -/
def pawnScan (b : Board) (pl : Player) (k : Pos) : List Pos → Bool
  | [] => false
  | v :: rest =>
    let np : Pos := (k.1 + v.1, k.2 + v.2)
    if inbounds np = false then pawnScan b pl k rest
    else
      match b.grid np with
      | none => pawnScan b pl k rest
      | some q =>
          if ¬ (b.pieceData q).player = pl ∧ (b.pieceData q).kind = .pawn then true
          else pawnScan b pl k rest

/-- Python method `Board.check_check`, in source order: four corridors, four diagonals,
knight offsets, pawn squares, king offsets. -/
def check_check (b : Board) (pl : Player) : Bool :=
  let k := (b.pieceData (b.kings pl)).pos
  rayScan b pl k (1, 0) [.rook, .queen] steps7 ||
  rayScan b pl k (-1, 0) [.rook, .queen] steps7 ||
  rayScan b pl k (0, 1) [.rook, .queen] steps7 ||
  rayScan b pl k (0, -1) [.rook, .queen] steps7 ||
  rayScan b pl k (1, 1) [.bishop, .queen] steps7 ||
  rayScan b pl k (1, -1) [.bishop, .queen] steps7 ||
  rayScan b pl k (-1, -1) [.bishop, .queen] steps7 ||
  rayScan b pl k (-1, 1) [.bishop, .queen] steps7 ||
  offsetScanBreak b pl k .knight
    [(2, 1), (2, -1), (-2, 1), (-2, -1), (1, 2), (1, -2), (-1, 2), (-1, -2)] ||
  (match pl with
   | .black => pawnScan b pl k [(-1, -1), (1, -1)]
   | .white => pawnScan b pl k [(-1, 1), (1, 1)]) ||
  offsetScanBreak b pl k .king
    [(1, 1), (1, 0), (1, -1), (0, -1), (-1, -1), (-1, 0), (-1, 1), (0, 1)]

/-- Python function `construct_candidates` in `AI_player.py`: all moves of all pieces of the
player, in collection order. -/
def construct_candidates (b : Board) (pl : Player) : List Move :=
  (b.pieces pl).flatMap fun pid => get_moves b pid

/-- Fold giving the score of `max(candidates, key=...)` respectively
`min(...)`: white maximises, black minimises. -/
def bestVal (pl : Player) : List ℚ → ℚ
  | [] => 0
  | x :: xs =>
      match pl with
      | .white => xs.foldl max x
      | .black => xs.foldl min x

/-- The candidate loop of `AI_choose_move`: for each candidate record the
score before, make the move, obtain the opponent continuation value through
`cont` (the recursive call, which in the source takes the default
attenuation), read the score after, attach the score change, and unmake.
The board is threaded explicitly. -/
def AI_scoredAux (cont : Board → Player → ℚ × Board) (pl : Player) (att : ℚ) :
    Board → List Move → List (Move × ℚ) × Board
  | b, [] => ([], b)
  | b, c :: rest =>
    let currentScore : Int := b.score
    let mk := make_move b c
    let rv := cont mk.1 (otherPlayer pl)
    let sc : ℚ := ((rv.2.score - currentScore : Int) : ℚ) + rv.1 * att
    let um := unmake_move rv.2 mk.2
    let tail := AI_scoredAux cont pl att um.1 rest
    ((um.2, sc) :: tail.1, tail.2)

/-- The `score_change` of the move returned by `AI_choose_move(board,
player, depth)` (with the default attenuation, as in the recursive call on
line 46 of `AI_player.py`), together with the board state on return.  All
moves tied for best share this value, so the random tie-break does not
affect it. -/
def AI_value : Nat → Board → Player → ℚ × Board
  | 0, b, _ => (0, b)
  | Nat.succ d, b, pl =>
    let cands := construct_candidates b pl
    if cands.isEmpty then (0, b)
    else
      let r := AI_scoredAux (AI_value d) pl (3 / 4 : ℚ) b cands
      (bestVal pl (r.1.map Prod.snd), r.2)

/-- Python function `AI_choose_move(board, player, depth, attenuation)` up to the final
`random.choice`: the list of (move, score_change) pairs the random choice
picks from, and the board state on return.  Base cases return the null move
with score change 0. -/
def AI_choose_set (b : Board) (pl : Player) (depth : Nat) (att : ℚ) :
    List (Move × ℚ) × Board :=
  match depth with
  | 0 => ([({}, 0)], b)
  | Nat.succ d =>
    let cands := construct_candidates b pl
    if cands.isEmpty then ([({}, 0)], b)
    else
      let r := AI_scoredAux (AI_value d) pl att b cands
      let best := bestVal pl (r.1.map Prod.snd)
      (r.1.filter (fun x => decide (x.2 = best)), r.2)

/-- The 32 pieces created by `Board.__init__`, in creation order (piece id =
index): white back rank, white pawns, black pawns, black back rank. -/
def initList : List PieceSt :=
  [⟨.white, .rook, (0, 0)⟩, ⟨.white, .knight, (1, 0)⟩, ⟨.white, .bishop, (2, 0)⟩,
   ⟨.white, .queen, (3, 0)⟩, ⟨.white, .king, (4, 0)⟩, ⟨.white, .bishop, (5, 0)⟩,
   ⟨.white, .knight, (6, 0)⟩, ⟨.white, .rook, (7, 0)⟩] ++
  ((List.range 8).map fun (c : Nat) => ⟨.white, .pawn, ((c : Int), 1)⟩) ++
  ((List.range 8).map fun (c : Nat) => ⟨.black, .pawn, ((c : Int), 6)⟩) ++
  [⟨.black, .rook, (0, 7)⟩, ⟨.black, .knight, (1, 7)⟩, ⟨.black, .bishop, (2, 7)⟩,
   ⟨.black, .queen, (3, 7)⟩, ⟨.black, .king, (4, 7)⟩, ⟨.black, .bishop, (5, 7)⟩,
   ⟨.black, .knight, (6, 7)⟩, ⟨.black, .rook, (7, 7)⟩]

def initData (i : PieceId) : PieceSt := initList.getD i ⟨.white, .pawn, (0, 0)⟩

/-- The initial board: every piece placed on the grid at its position,
score 0, 32 pieces, kings at ids 4 and 28. -/
def initBoard : Board where
  grid := (List.range 32).foldl
    (fun g i => fun p => if p = (initData i).pos then some i else g p)
    (fun _ => none)
  pieceData := initData
  score := 0
  num_pieces := 32
  pieces := fun pl =>
    match pl with
    | .white => List.range 16
    | .black => (List.range 16).map fun i => i + 16
  kings := fun pl => match pl with | .white => 4 | .black => 28

/-- The 64 on-board squares. -/
def squares : List Pos :=
  (List.range 8).flatMap fun (y : Nat) =>
    (List.range 8).map fun (x : Nat) => ((x : Int), (y : Int))

/-- The Board data-model invariant of the spec (section 3): every piece in a
side's collection has its side's colour, sits in bounds, and is found on the
grid at its recorded position; the collections have no duplicates; and every
occupied grid square holds a piece of some collection whose recorded
position is that square. -/
def Consistent (b : Board) : Bool :=
  (((b.pieces .white).all fun i =>
      decide ((b.pieceData i).player = .white) &&
      inbounds (b.pieceData i).pos &&
      decide (b.grid (b.pieceData i).pos = some i)) &&
   ((b.pieces .black).all fun i =>
      decide ((b.pieceData i).player = .black) &&
      inbounds (b.pieceData i).pos &&
      decide (b.grid (b.pieceData i).pos = some i)) &&
   decide (b.pieces .white).Nodup && decide (b.pieces .black).Nodup) &&
  (squares.all fun p =>
    match b.grid p with
    | none => true
    | some q =>
        decide (q ∈ b.pieces (b.pieceData q).player) &&
        decide ((b.pieceData q).pos = p))

/-- Signed material sum over the two collections, evaluated at the pieces'
current behaviour kinds. -/
def sumValues (b : Board) : Int :=
  ((b.pieces .white).map fun i => pieceValue (b.pieceData i)).sum +
  ((b.pieces .black).map fun i => pieceValue (b.pieceData i)).sum

/-- Observational identity of two board states: same grid occupancy, same
piece store (hence piece positions), same score and piece count, the same
collections up to order, and the same king references. -/
structure ObsEq (a b : Board) : Prop where
  grid : ∀ p, a.grid p = b.grid p
  data : ∀ i, a.pieceData i = b.pieceData i
  score : a.score = b.score
  num : a.num_pieces = b.num_pieces
  perm : ∀ pl, (a.pieces pl).Perm (b.pieces pl)
  kings : ∀ pl, a.kings pl = b.kings pl

/-- One engine step as described by the spec's stack discipline: either make
a move generated for a piece of the current state (pushing the updated move
record), or unmake the most recently made pending move (popping it). -/
inductive Tr : Board × List Move → Board × List Move → Prop where
  | make : ∀ (b : Board) (st : List Move) (side : Player) (pid : PieceId) (m : Move),
      pid ∈ b.pieces side → m ∈ get_moves b pid →
      Tr (b, st) ((make_move b m).1, (make_move b m).2 :: st)
  | unmake : ∀ (b : Board) (st : List Move) (m : Move),
      Tr (b, m :: st) ((unmake_move b m).1, st)

/-- Reachability from the initial board by make/unmake steps obeying the
stack discipline. -/
def Reach (s : Board × List Move) : Prop :=
  Relation.ReflTransGen Tr (initBoard, []) s

/-- Strengthened stack invariant used for reachability proofs: each pending
move on the stack was generated and made from a consistent, score-correct
board, and the current board is observationally the result of that make. -/
def StackInv : List Move → Board → Prop
  | [], _ => True
  | m :: st, b => ∃ b0 side pid m0,
      Consistent b0 = true ∧ b0.score = sumValues b0 ∧ StackInv st b0 ∧
      pid ∈ b0.pieces side ∧ m0 ∈ get_moves b0 pid ∧
      (make_move b0 m0).2 = m ∧ ObsEq b (make_move b0 m0).1

/-- Black knight from b8 to c6 (coordinates (1,7) to (2,5)). -/
def mA : Move := { origin := some (1, 7), origin_piece := some 25,
                   destination := some (2, 5), destination_piece := none }

/-- White knight from g1 to h3. -/
def mB : Move := { origin := some (6, 0), origin_piece := some 6,
                   destination := some (7, 2), destination_piece := none }

/-- Black knight onward to (3,3). -/
def mC : Move := { origin := some (2, 5), origin_piece := some 25,
                   destination := some (3, 3), destination_piece := none }

/-- White knight back to g1. -/
def mD : Move := { origin := some (7, 2), origin_piece := some 6,
                   destination := some (6, 0), destination_piece := none }

/-- Black knight captures the white pawn on (2,1); from there it attacks the
white king square (4,0). -/
def mE : Move := { origin := some (3, 3), origin_piece := some 25,
                   destination := some (2, 1), destination_piece := some 10 }

def bA : Board := (make_move initBoard mA).1
def bB : Board := (make_move bA mB).1
def bC : Board := (make_move bB mC).1
def bD : Board := (make_move bC mD).1

/-- Board after the five alternating moves above: a black knight on (2,1)
attacks the white king on (4,0). -/
def bE : Board := (make_move bD mE).1

/-- The knight capture of the white king available on `bE`. -/
def mKing : Move := { origin := some (2, 1), origin_piece := some 25,
                      destination := some (4, 0), destination_piece := some 4 }

/-- Black pawn (3,6) double-steps to (3,4). -/
def n1 : Move := { origin := some (3, 6), origin_piece := some 19,
                   destination := some (3, 4), destination_piece := none }

/-- Black pawn on to (3,3). -/
def n2 : Move := { origin := some (3, 4), origin_piece := some 19,
                   destination := some (3, 3), destination_piece := none }

/-- Black pawn on to (3,2), directly in front of the white pawn on (3,1). -/
def n3 : Move := { origin := some (3, 3), origin_piece := some 19,
                   destination := some (3, 2), destination_piece := none }

def cA : Board := (make_move initBoard n1).1
def cB : Board := (make_move cA n2).1

/-- Board with the white pawn 11 on its starting square (3,1), the square
(3,2) occupied by a black pawn and (3,3) empty. -/
def cC : Board := (make_move cB n3).1

/-- A minimal board with a single white pawn one step from promotion. -/
def promoBoard : Board where
  grid := fun p => if p = (0, 6) then some 0 else none
  pieceData := fun i => if i = 0 then ⟨.white, .pawn, (0, 6)⟩ else ⟨.black, .pawn, (0, 0)⟩
  score := 2
  num_pieces := 1
  pieces := fun pl => match pl with | .white => [0] | .black => []
  kings := fun _ => 0

/-- The promoting pawn push onto rank 7. -/
def promoMove : Move := { origin := some (0, 6), origin_piece := some 0,
                          destination := some (0, 7), destination_piece := none }

/-- A board on which black has no pieces at all, hence no candidate moves. -/
def lonelyBoard : Board where
  grid := fun p => if p = (0, 0) then some 0 else none
  pieceData := fun _ => ⟨.white, .king, (0, 0)⟩
  score := 200
  num_pieces := 1
  pieces := fun pl => match pl with | .white => [0] | .black => []
  kings := fun _ => 0


/-- Shorthand for a generated move record. -/
def mkMove (o : Pos) (pid : PieceId) (dpos : Pos) (dp : Option PieceId) : Move :=
  { origin := some o, origin_piece := some pid, destination := some dpos,
    destination_piece := dp, pawn_change := false }

theorem ObsEq.refl (b : Board) : ObsEq b b :=
  ⟨fun _ => rfl, fun _ => rfl, rfl, rfl, fun _ => List.Perm.refl _, fun _ => rfl⟩

theorem ObsEq.symm {a b : Board} (h : ObsEq a b) : ObsEq b a :=
  ⟨fun p => (h.grid p).symm, fun i => (h.data i).symm, h.score.symm, h.num.symm,
   fun pl => (h.perm pl).symm, fun pl => (h.kings pl).symm⟩

theorem ObsEq.trans {a b c : Board} (h1 : ObsEq a b) (h2 : ObsEq b c) : ObsEq a c :=
  ⟨fun p => (h1.grid p).trans (h2.grid p), fun i => (h1.data i).trans (h2.data i),
   h1.score.trans h2.score, h1.num.trans h2.num,
   fun pl => (h1.perm pl).trans (h2.perm pl), fun pl => (h1.kings pl).trans (h2.kings pl)⟩

theorem inbounds_iff {p : Pos} :
    inbounds p = true ↔ 0 ≤ p.1 ∧ p.1 ≤ 7 ∧ 0 ≤ p.2 ∧ p.2 ≤ 7 := by
  unfold inbounds
  split_ifs <;> simp <;> omega

theorem mem_squares {p : Pos} : p ∈ squares ↔ inbounds p = true := by
  obtain ⟨a, b⟩ := p
  constructor
  · intro h
    rcases List.mem_flatMap.mp h with ⟨y, hy, hmem⟩
    rcases List.mem_map.mp hmem with ⟨x, hx, heq⟩
    rw [List.mem_range] at hy hx
    rw [inbounds_iff]
    have h1 : ((x : Int) = a) ∧ ((y : Int) = b) := by
      have h2 := heq
      rw [Prod.mk.injEq] at h2
      exact h2
    obtain ⟨ha, hb⟩ := h1
    refine ⟨by omega, by omega, by omega, by omega⟩
  · intro h
    rw [inbounds_iff] at h
    dsimp only at h
    refine List.mem_flatMap.mpr ⟨b.toNat, List.mem_range.mpr (by omega),
      List.mem_map.mpr ⟨a.toNat, List.mem_range.mpr (by omega), ?_⟩⟩
    rw [Prod.mk.injEq]
    constructor
    · omega
    · omega

theorem consistent_coll {b : Board} (hc : Consistent b = true) {side : Player}
    {i : PieceId} (hi : i ∈ b.pieces side) :
    (b.pieceData i).player = side ∧ inbounds (b.pieceData i).pos = true ∧
    b.grid (b.pieceData i).pos = some i := by
  simp only [Consistent, Bool.and_eq_true, List.all_eq_true, decide_eq_true_eq] at hc
  cases side
  · obtain ⟨⟨h1, h2⟩, h3⟩ := hc.1.1.1.1 i hi
    exact ⟨h1, h2, h3⟩
  · obtain ⟨⟨h1, h2⟩, h3⟩ := hc.1.1.1.2 i hi
    exact ⟨h1, h2, h3⟩

theorem consistent_nodup {b : Board} (hc : Consistent b = true) (pl : Player) :
    (b.pieces pl).Nodup := by
  simp only [Consistent, Bool.and_eq_true, List.all_eq_true, decide_eq_true_eq] at hc
  cases pl
  · exact hc.1.1.2
  · exact hc.1.2

theorem consistent_grid {b : Board} (hc : Consistent b = true) {p : Pos} {q : PieceId}
    (hpinb : inbounds p = true) (hq : b.grid p = some q) :
    q ∈ b.pieces (b.pieceData q).player ∧ (b.pieceData q).pos = p := by
  simp only [Consistent, Bool.and_eq_true, List.all_eq_true] at hc
  have h2 := hc.2 p (mem_squares.mpr hpinb)
  rw [hq] at h2
  simp only [Bool.and_eq_true, decide_eq_true_eq] at h2
  exact h2

theorem directions_nonzero :
    ∀ (k : PieceKind) (pl : Player), ∀ dir ∈ pieceDirections k pl, ∀ v ∈ dir,
      ¬ (v.1 = 0 ∧ v.2 = 0) := by
  intro k pl
  cases k <;> cases pl <;> decide

theorem walkDir_mem {b : Board} {sk : PieceKind} {pos : Pos} {cur : PieceId}
    {vs : List Pos} {m : Move} (h : m ∈ walkDir b sk pos cur vs) :
    ∃ v ∈ vs,
      m = { origin := some pos, origin_piece := some cur,
            destination := some (pos.1 + v.1, pos.2 + v.2),
            destination_piece := b.grid (pos.1 + v.1, pos.2 + v.2) } ∧
      inbounds (pos.1 + v.1, pos.2 + v.2) = true ∧
      (∀ q, b.grid (pos.1 + v.1, pos.2 + v.2) = some q →
        ¬ (b.pieceData q).player = (b.pieceData cur).player) := by
  induction vs with
  | nil => simp [walkDir] at h
  | cons v rest ih =>
    simp only [walkDir] at h
    cases hin : inbounds (pos.1 + v.1, pos.2 + v.2) with
    | false =>
      rw [hin] at h
      simp at h
    | true =>
      rw [hin] at h
      rcases hgrid : b.grid (pos.1 + v.1, pos.2 + v.2) with _ | q
      · rw [hgrid] at h
        simp only [Bool.true_eq_false, if_false] at h
        cases hval : is_valid_move sk v (b.pieceData cur).pos true with
        | false =>
          rw [hval] at h
          simp at h
        | true =>
          rw [hval] at h
          simp only [Bool.true_eq_false, if_false, List.mem_cons] at h
          rcases h with h1 | h2
          · refine ⟨v, List.mem_cons_self _ _, ?_, hin, ?_⟩
            · rw [hgrid]
              exact h1
            · intro r hr
              rw [hgrid] at hr
              exact absurd hr (by simp)
          · obtain ⟨w, hw, hprops⟩ := ih h2
            exact ⟨w, List.mem_cons_of_mem _ hw, hprops⟩
      · rw [hgrid] at h
        simp only [Bool.true_eq_false, if_false] at h
        by_cases hfr : (b.pieceData q).player = (b.pieceData cur).player
        · rw [if_pos hfr] at h
          simp at h
        · rw [if_neg hfr] at h
          cases hval : is_valid_move sk v (b.pieceData cur).pos false with
          | false =>
            rw [hval] at h
            simp at h
          | true =>
            rw [hval] at h
            simp only [Bool.true_eq_false, if_false, List.mem_singleton] at h
            refine ⟨v, List.mem_cons_self _ _, ?_, hin, ?_⟩
            · rw [hgrid]
              exact h
            · intro r hr
              rw [hgrid] at hr
              have hrq : q = r := by simpa using hr
              rw [← hrq]
              exact hfr

theorem get_moves_char {b : Board} {pid : PieceId} {m : Move}
    (hg : b.grid (b.pieceData pid).pos = some pid)
    (hm : m ∈ get_moves b pid) :
    ∃ dpos,
      m = mkMove (b.pieceData pid).pos pid dpos (b.grid dpos) ∧
      inbounds dpos = true ∧ ¬ dpos = (b.pieceData pid).pos ∧
      (∀ q, b.grid dpos = some q →
        ¬ (b.pieceData q).player = (b.pieceData pid).player) := by
  unfold get_moves at hm
  rw [hg] at hm
  obtain ⟨dir, hdir, hmem⟩ := List.mem_flatMap.mp hm
  obtain ⟨v, hv, hmeq, hinb, hq⟩ := walkDir_mem hmem
  refine ⟨((b.pieceData pid).pos.1 + v.1, (b.pieceData pid).pos.2 + v.2),
    by unfold mkMove; exact hmeq, hinb, ?_, hq⟩
  intro heq
  have hnz := directions_nonzero (b.pieceData pid).kind (b.pieceData pid).player dir hdir v hv
  apply hnz
  have h2 : (b.pieceData pid).pos.1 + v.1 = (b.pieceData pid).pos.1 ∧
      (b.pieceData pid).pos.2 + v.2 = (b.pieceData pid).pos.2 := by
    have h3 := heq
    rw [Prod.ext_iff] at h3
    exact h3
  constructor
  · omega
  · omega

theorem dataSet_same (f : PieceId → PieceSt) (i : PieceId) (v : PieceSt) :
    dataSet f i v i = v := by
  simp [dataSet]

theorem dataSet_ne {j i : PieceId} (f : PieceId → PieceSt) (v : PieceSt) (h : ¬ j = i) :
    dataSet f i v j = f j := by
  simp [dataSet, h]

theorem gridSet_same (g : Pos → Option PieceId) (p : Pos) (v : Option PieceId) :
    gridSet g p v p = v := by
  simp [gridSet]

theorem gridSet_ne {q p : Pos} (g : Pos → Option PieceId) (v : Option PieceId)
    (h : ¬ q = p) : gridSet g p v q = g q := by
  simp [gridSet, h]

theorem piecesSet_same (f : Player → List PieceId) (pl : Player) (l : List PieceId) :
    piecesSet f pl l pl = l := by
  simp [piecesSet]

theorem piecesSet_ne {x pl : Player} (f : Player → List PieceId) (l : List PieceId)
    (h : ¬ x = pl) : piecesSet f pl l x = f x := by
  simp [piecesSet, h]

/-- Un-making a move straight after making it restores the original board up
to observational identity, and hands back the original move record. -/
theorem make_unmake {b : Board} {side : Player} {pid : PieceId} {m : Move}
    (hc : Consistent b = true) (hp : pid ∈ b.pieces side) (hm : m ∈ get_moves b pid) :
    ObsEq (unmake_move (make_move b m).1 (make_move b m).2).1 b ∧
    (unmake_move (make_move b m).1 (make_move b m).2).2 = m := by
  obtain ⟨hplayer, hinb, hgo⟩ := consistent_coll hc hp
  obtain ⟨dpos, hmeq, hdinb, hdne, henemy⟩ := get_moves_char hgo hm
  have hone : ¬ (b.pieceData pid).pos = dpos := fun h => hdne h.symm
  rcases hgd : b.grid dpos with _ | qid
  · -- quiet move
    rw [hgd] at hmeq
    subst hmeq
    by_cases hw : (b.pieceData pid).kind = .pawn ∧ (b.pieceData pid).player = .white ∧ dpos.2 = 7
    · refine ⟨⟨fun p => ?_, fun i => ?_, ?_, ?_, fun pl => ?_, fun pl => ?_⟩, ?_⟩
      · by_cases h1 : p = dpos
        · subst h1
          simp [mkMove, make_move, unmake_move, hw.1, hw.2.1, hw.2.2, gridSet_same, hgd]
        · by_cases h2 : p = (b.pieceData pid).pos
          · subst h2
            simp [mkMove, make_move, unmake_move, hw.1, hw.2.1, hw.2.2, gridSet_same,
              gridSet_ne _ _ h1, hgo]
          · simp [mkMove, make_move, unmake_move, hw.1, hw.2.1, hw.2.2,
              gridSet_ne _ _ h1, gridSet_ne _ _ h2]
      · by_cases h1 : i = pid
        · subst h1
          simp [mkMove, make_move, unmake_move, hw.1, hw.2.1, hw.2.2, dataSet_same]
          rw [← hw.1, ← hw.2.1]
        · simp [mkMove, make_move, unmake_move, hw.1, hw.2.1, hw.2.2, dataSet_ne _ _ h1]
      · simp [mkMove, make_move, unmake_move, hw.1, hw.2.1, hw.2.2, dataSet_same]
      · simp [mkMove, make_move, unmake_move, hw.1, hw.2.1, hw.2.2]
      · simp [mkMove, make_move, unmake_move, hw.1, hw.2.1, hw.2.2]
      · simp [mkMove, make_move, unmake_move, hw.1, hw.2.1, hw.2.2]
      · simp [mkMove, make_move, unmake_move, hw.1, hw.2.1, hw.2.2]
    · by_cases hbk : (b.pieceData pid).kind = .pawn ∧ (b.pieceData pid).player = .black ∧ dpos.2 = 0
      · refine ⟨⟨fun p => ?_, fun i => ?_, ?_, ?_, fun pl => ?_, fun pl => ?_⟩, ?_⟩
        · by_cases h1 : p = dpos
          · subst h1
            simp [mkMove, make_move, unmake_move, hw, hbk.1, hbk.2.1, hbk.2.2, gridSet_same, hgd]
          · by_cases h2 : p = (b.pieceData pid).pos
            · subst h2
              simp [mkMove, make_move, unmake_move, hw, hbk.1, hbk.2.1, hbk.2.2, gridSet_same,
                gridSet_ne _ _ h1, hgo]
            · simp [mkMove, make_move, unmake_move, hw, hbk.1, hbk.2.1, hbk.2.2,
                gridSet_ne _ _ h1, gridSet_ne _ _ h2]
        · by_cases h1 : i = pid
          · subst h1
            simp [mkMove, make_move, unmake_move, hw, hbk.1, hbk.2.1, hbk.2.2, dataSet_same]
            rw [← hbk.1, ← hbk.2.1]
          · simp [mkMove, make_move, unmake_move, hw, hbk.1, hbk.2.1, hbk.2.2, dataSet_ne _ _ h1]
        · simp [mkMove, make_move, unmake_move, hw, hbk.1, hbk.2.1, hbk.2.2, dataSet_same]
        · simp [mkMove, make_move, unmake_move, hw, hbk.1, hbk.2.1, hbk.2.2]
        · simp [mkMove, make_move, unmake_move, hw, hbk.1, hbk.2.1, hbk.2.2]
        · simp [mkMove, make_move, unmake_move, hw, hbk.1, hbk.2.1, hbk.2.2]
        · simp [mkMove, make_move, unmake_move, hw, hbk.1, hbk.2.1, hbk.2.2]
      · refine ⟨⟨fun p => ?_, fun i => ?_, ?_, ?_, fun pl => ?_, fun pl => ?_⟩, ?_⟩
        · by_cases h1 : p = dpos
          · subst h1
            simp [mkMove, make_move, unmake_move, hw, hbk, gridSet_same, hgd]
          · by_cases h2 : p = (b.pieceData pid).pos
            · subst h2
              simp [mkMove, make_move, unmake_move, hw, hbk, gridSet_same, gridSet_ne _ _ h1, hgo]
            · simp [mkMove, make_move, unmake_move, hw, hbk, gridSet_ne _ _ h1, gridSet_ne _ _ h2]
        · by_cases h1 : i = pid
          · subst h1
            simp [mkMove, make_move, unmake_move, hw, hbk, dataSet_same]
          · simp [mkMove, make_move, unmake_move, hw, hbk, dataSet_ne _ _ h1]
        · simp [mkMove, make_move, unmake_move, hw, hbk]
        · simp [mkMove, make_move, unmake_move, hw, hbk]
        · simp [mkMove, make_move, unmake_move, hw, hbk]
        · simp [mkMove, make_move, unmake_move, hw, hbk]
        · simp [mkMove, make_move, unmake_move, hw, hbk]
  · -- capture
    rw [hgd] at hmeq
    subst hmeq
    have hqenemy := henemy qid hgd
    have hqne : ¬ qid = pid := fun h => hqenemy (by rw [h])
    obtain ⟨hqmem, hqpos⟩ := consistent_grid hc hdinb hgd
    have hqinlist : qid ∈ b.pieces (b.pieceData qid).player := hqmem
    have hperm : ((b.pieces (b.pieceData qid).player).erase qid ++ [qid]).Perm
        (b.pieces (b.pieceData qid).player) := by
      refine ((List.perm_append_singleton _ _).trans ?_)
      exact (List.perm_cons_erase hqinlist).symm
    by_cases hw : (b.pieceData pid).kind = .pawn ∧ (b.pieceData pid).player = .white ∧ dpos.2 = 7
    · refine ⟨⟨fun p => ?_, fun i => ?_, ?_, ?_, fun pl => ?_, fun pl => ?_⟩, ?_⟩
      · by_cases h1 : p = dpos
        · subst h1
          simp [mkMove, make_move, unmake_move, hw.1, hw.2.1, hw.2.2, gridSet_same, hgd,
            dataSet_ne _ _ hqne]
        · by_cases h2 : p = (b.pieceData pid).pos
          · subst h2
            simp [mkMove, make_move, unmake_move, hw.1, hw.2.1, hw.2.2, gridSet_same,
              gridSet_ne _ _ h1, hgo, dataSet_ne _ _ hqne]
          · simp [mkMove, make_move, unmake_move, hw.1, hw.2.1, hw.2.2,
              gridSet_ne _ _ h1, gridSet_ne _ _ h2, dataSet_ne _ _ hqne]
      · by_cases h1 : i = pid
        · subst h1
          simp [mkMove, make_move, unmake_move, hw.1, hw.2.1, hw.2.2, dataSet_same,
            dataSet_ne _ _ hqne]
          rw [← hw.1, ← hw.2.1]
        · simp [mkMove, make_move, unmake_move, hw.1, hw.2.1, hw.2.2, dataSet_ne _ _ h1,
            dataSet_ne _ _ hqne]
      · simp [mkMove, make_move, unmake_move, hw.1, hw.2.1, hw.2.2, dataSet_same,
          dataSet_ne _ _ hqne]
        omega
      · simp [mkMove, make_move, unmake_move, hw.1, hw.2.1, hw.2.2, dataSet_ne _ _ hqne]
      · by_cases h1 : pl = (b.pieceData qid).player
        · subst h1
          simp [mkMove, make_move, unmake_move, hw.1, hw.2.1, hw.2.2, dataSet_ne _ _ hqne,
            piecesSet_same]
          exact hperm
        · simp [mkMove, make_move, unmake_move, hw.1, hw.2.1, hw.2.2, dataSet_ne _ _ hqne,
            piecesSet_ne _ _ h1]
      · simp [mkMove, make_move, unmake_move, hw.1, hw.2.1, hw.2.2, dataSet_ne _ _ hqne]
      · simp [mkMove, make_move, unmake_move, hw.1, hw.2.1, hw.2.2, dataSet_ne _ _ hqne]
    · by_cases hbk : (b.pieceData pid).kind = .pawn ∧ (b.pieceData pid).player = .black ∧ dpos.2 = 0
      · refine ⟨⟨fun p => ?_, fun i => ?_, ?_, ?_, fun pl => ?_, fun pl => ?_⟩, ?_⟩
        · by_cases h1 : p = dpos
          · subst h1
            simp [mkMove, make_move, unmake_move, hw, hbk.1, hbk.2.1, hbk.2.2, gridSet_same, hgd,
              dataSet_ne _ _ hqne]
          · by_cases h2 : p = (b.pieceData pid).pos
            · subst h2
              simp [mkMove, make_move, unmake_move, hw, hbk.1, hbk.2.1, hbk.2.2, gridSet_same,
                gridSet_ne _ _ h1, hgo, dataSet_ne _ _ hqne]
            · simp [mkMove, make_move, unmake_move, hw, hbk.1, hbk.2.1, hbk.2.2,
                gridSet_ne _ _ h1, gridSet_ne _ _ h2, dataSet_ne _ _ hqne]
        · by_cases h1 : i = pid
          · subst h1
            simp [mkMove, make_move, unmake_move, hw, hbk.1, hbk.2.1, hbk.2.2, dataSet_same,
              dataSet_ne _ _ hqne]
            rw [← hbk.1, ← hbk.2.1]
          · simp [mkMove, make_move, unmake_move, hw, hbk.1, hbk.2.1, hbk.2.2, dataSet_ne _ _ h1,
              dataSet_ne _ _ hqne]
        · simp [mkMove, make_move, unmake_move, hw, hbk.1, hbk.2.1, hbk.2.2, dataSet_same,
            dataSet_ne _ _ hqne]
          omega
        · simp [mkMove, make_move, unmake_move, hw, hbk.1, hbk.2.1, hbk.2.2, dataSet_ne _ _ hqne]
        · by_cases h1 : pl = (b.pieceData qid).player
          · subst h1
            simp [mkMove, make_move, unmake_move, hw, hbk.1, hbk.2.1, hbk.2.2, dataSet_ne _ _ hqne,
              piecesSet_same]
            exact hperm
          · simp [mkMove, make_move, unmake_move, hw, hbk.1, hbk.2.1, hbk.2.2, dataSet_ne _ _ hqne,
              piecesSet_ne _ _ h1]
        · simp [mkMove, make_move, unmake_move, hw, hbk.1, hbk.2.1, hbk.2.2, dataSet_ne _ _ hqne]
        · simp [mkMove, make_move, unmake_move, hw, hbk.1, hbk.2.1, hbk.2.2, dataSet_ne _ _ hqne]
      · refine ⟨⟨fun p => ?_, fun i => ?_, ?_, ?_, fun pl => ?_, fun pl => ?_⟩, ?_⟩
        · by_cases h1 : p = dpos
          · subst h1
            simp [mkMove, make_move, unmake_move, hw, hbk, gridSet_same, hgd, dataSet_ne _ _ hqne]
          · by_cases h2 : p = (b.pieceData pid).pos
            · subst h2
              simp [mkMove, make_move, unmake_move, hw, hbk, gridSet_same, gridSet_ne _ _ h1, hgo,
                dataSet_ne _ _ hqne]
            · simp [mkMove, make_move, unmake_move, hw, hbk, gridSet_ne _ _ h1, gridSet_ne _ _ h2,
                dataSet_ne _ _ hqne]
        · by_cases h1 : i = pid
          · subst h1
            simp [mkMove, make_move, unmake_move, hw, hbk, dataSet_same, dataSet_ne _ _ hqne]
          · simp [mkMove, make_move, unmake_move, hw, hbk, dataSet_ne _ _ h1, dataSet_ne _ _ hqne]
        · simp [mkMove, make_move, unmake_move, hw, hbk, dataSet_ne _ _ hqne]
        · simp [mkMove, make_move, unmake_move, hw, hbk, dataSet_ne _ _ hqne]
        · by_cases h1 : pl = (b.pieceData qid).player
          · subst h1
            simp [mkMove, make_move, unmake_move, hw, hbk, dataSet_ne _ _ hqne, piecesSet_same]
            exact hperm
          · simp [mkMove, make_move, unmake_move, hw, hbk, dataSet_ne _ _ hqne, piecesSet_ne _ _ h1]
        · simp [mkMove, make_move, unmake_move, hw, hbk, dataSet_ne _ _ hqne]
        · simp [mkMove, make_move, unmake_move, hw, hbk, dataSet_ne _ _ hqne]


theorem sum_update {l : List PieceId} {i : PieceId} (f g : PieceId → Int)
    (hnd : l.Nodup) (hi : i ∈ l) (hoff : ∀ j, ¬ j = i → g j = f j) :
    (l.map g).sum = (l.map f).sum + (g i - f i) := by
  have hperm := List.perm_cons_erase hi
  have hg : (l.map g).sum = ((i :: l.erase i).map g).sum := (hperm.map g).sum_eq
  have hf : (l.map f).sum = ((i :: l.erase i).map f).sum := (hperm.map f).sum_eq
  rw [hg, hf]
  simp only [List.map_cons, List.sum_cons]
  have hmc : (l.erase i).map g = (l.erase i).map f := by
    apply List.map_congr_left
    intro a ha
    exact hoff a ((hnd.mem_erase_iff).mp ha).1
  rw [hmc]
  omega

theorem sum_erase {l : List PieceId} {i : PieceId} (f : PieceId → Int) (hi : i ∈ l) :
    ((l.erase i).map f).sum = (l.map f).sum - f i := by
  have hperm := List.perm_cons_erase hi
  have hps := (hperm.map f).sum_eq
  simp only [List.map_cons, List.sum_cons] at hps
  omega

theorem consistent_intro {b : Board}
    (h1 : ∀ pl, ∀ i ∈ b.pieces pl, (b.pieceData i).player = pl ∧
      inbounds (b.pieceData i).pos = true ∧ b.grid (b.pieceData i).pos = some i)
    (h2 : ∀ pl, (b.pieces pl).Nodup)
    (h3 : ∀ p q, inbounds p = true → b.grid p = some q →
      q ∈ b.pieces (b.pieceData q).player ∧ (b.pieceData q).pos = p) :
    Consistent b = true := by
  simp only [Consistent, Bool.and_eq_true, List.all_eq_true, decide_eq_true_eq]
  refine ⟨⟨⟨⟨?_, ?_⟩, ?_⟩, ?_⟩, ?_⟩
  · intro i hi
    obtain ⟨a, c, d⟩ := h1 .white i hi
    exact ⟨⟨a, c⟩, d⟩
  · intro i hi
    obtain ⟨a, c, d⟩ := h1 .black i hi
    exact ⟨⟨a, c⟩, d⟩
  · exact h2 .white
  · exact h2 .black
  · intro p hp
    rcases hg : b.grid p with _ | q
    · rfl
    · simp only [Bool.and_eq_true, decide_eq_true_eq]
      exact h3 p q (mem_squares.mp hp) hg

theorem make_quiet_parts (b : Board) (pid : PieceId) (o dpos : Pos) :
    let r := make_move b (mkMove o pid dpos none)
    r.1.grid = gridSet (gridSet b.grid o none) dpos (some pid) ∧
    (∀ i, ¬ i = pid → r.1.pieceData i = b.pieceData i) ∧
    (r.1.pieceData pid).player = (b.pieceData pid).player ∧
    (r.1.pieceData pid).pos = dpos ∧
    r.1.pieces = b.pieces ∧
    r.1.kings = b.kings ∧
    r.1.num_pieces = b.num_pieces ∧
    r.1.score = b.score + (pieceValue (r.1.pieceData pid) - pieceValue (b.pieceData pid)) := by
  by_cases hw : (b.pieceData pid).kind = .pawn ∧ (b.pieceData pid).player = .white ∧ dpos.2 = 7
  · refine ⟨?_, ?_, ?_, ?_, ?_, ?_, ?_, ?_⟩
    · simp [mkMove, make_move, hw.1, hw.2.1, hw.2.2]
    · intro i hi
      simp [mkMove, make_move, hw.1, hw.2.1, hw.2.2, dataSet_ne _ _ hi]
    · simp [mkMove, make_move, hw.1, hw.2.1, hw.2.2, dataSet_same]
    · simp [mkMove, make_move, hw.1, hw.2.1, hw.2.2, dataSet_same]
    · simp [mkMove, make_move, hw.1, hw.2.1, hw.2.2]
    · simp [mkMove, make_move, hw.1, hw.2.1, hw.2.2]
    · simp [mkMove, make_move, hw.1, hw.2.1, hw.2.2]
    · simp [mkMove, make_move, hw.1, hw.2.1, hw.2.2, dataSet_same, pieceValue, kindValue]
      try omega
  · by_cases hbk : (b.pieceData pid).kind = .pawn ∧ (b.pieceData pid).player = .black ∧ dpos.2 = 0
    · refine ⟨?_, ?_, ?_, ?_, ?_, ?_, ?_, ?_⟩
      · simp [mkMove, make_move, hw, hbk.1, hbk.2.1, hbk.2.2]
      · intro i hi
        simp [mkMove, make_move, hw, hbk.1, hbk.2.1, hbk.2.2, dataSet_ne _ _ hi]
      · simp [mkMove, make_move, hw, hbk.1, hbk.2.1, hbk.2.2, dataSet_same]
      · simp [mkMove, make_move, hw, hbk.1, hbk.2.1, hbk.2.2, dataSet_same]
      · simp [mkMove, make_move, hw, hbk.1, hbk.2.1, hbk.2.2]
      · simp [mkMove, make_move, hw, hbk.1, hbk.2.1, hbk.2.2]
      · simp [mkMove, make_move, hw, hbk.1, hbk.2.1, hbk.2.2]
      · simp [mkMove, make_move, hw, hbk.1, hbk.2.1, hbk.2.2, dataSet_same, pieceValue, kindValue]
        try omega
    · refine ⟨?_, ?_, ?_, ?_, ?_, ?_, ?_, ?_⟩
      · simp [mkMove, make_move, hw, hbk]
      · intro i hi
        simp [mkMove, make_move, hw, hbk, dataSet_ne _ _ hi]
      · simp [mkMove, make_move, hw, hbk, dataSet_same, pieceValue]
      · simp [mkMove, make_move, hw, hbk, dataSet_same, pieceValue]
      · simp [mkMove, make_move, hw, hbk]
      · simp [mkMove, make_move, hw, hbk]
      · simp [mkMove, make_move, hw, hbk]
      · simp [mkMove, make_move, hw, hbk, dataSet_same, pieceValue]

theorem make_capture_parts (b : Board) (pid qid : PieceId) (o dpos : Pos) :
    let r := make_move b (mkMove o pid dpos (some qid))
    r.1.grid = gridSet (gridSet b.grid o none) dpos (some pid) ∧
    (∀ i, ¬ i = pid → r.1.pieceData i = b.pieceData i) ∧
    (r.1.pieceData pid).player = (b.pieceData pid).player ∧
    (r.1.pieceData pid).pos = dpos ∧
    r.1.pieces = piecesSet b.pieces (b.pieceData qid).player
      ((b.pieces (b.pieceData qid).player).erase qid) ∧
    r.1.kings = b.kings ∧
    r.1.num_pieces = b.num_pieces - 1 ∧
    r.1.score = b.score - pieceValue (b.pieceData qid)
      + (pieceValue (r.1.pieceData pid) - pieceValue (b.pieceData pid)) := by
  by_cases hw : (b.pieceData pid).kind = .pawn ∧ (b.pieceData pid).player = .white ∧ dpos.2 = 7
  · refine ⟨?_, ?_, ?_, ?_, ?_, ?_, ?_, ?_⟩
    · simp [mkMove, make_move, hw.1, hw.2.1, hw.2.2]
    · intro i hi
      simp [mkMove, make_move, hw.1, hw.2.1, hw.2.2, dataSet_ne _ _ hi]
    · simp [mkMove, make_move, hw.1, hw.2.1, hw.2.2, dataSet_same]
    · simp [mkMove, make_move, hw.1, hw.2.1, hw.2.2, dataSet_same]
    · simp [mkMove, make_move, hw.1, hw.2.1, hw.2.2]
    · simp [mkMove, make_move, hw.1, hw.2.1, hw.2.2]
    · simp [mkMove, make_move, hw.1, hw.2.1, hw.2.2]
    · simp [mkMove, make_move, hw.1, hw.2.1, hw.2.2, dataSet_same, pieceValue, kindValue]
      try omega
  · by_cases hbk : (b.pieceData pid).kind = .pawn ∧ (b.pieceData pid).player = .black ∧ dpos.2 = 0
    · refine ⟨?_, ?_, ?_, ?_, ?_, ?_, ?_, ?_⟩
      · simp [mkMove, make_move, hw, hbk.1, hbk.2.1, hbk.2.2]
      · intro i hi
        simp [mkMove, make_move, hw, hbk.1, hbk.2.1, hbk.2.2, dataSet_ne _ _ hi]
      · simp [mkMove, make_move, hw, hbk.1, hbk.2.1, hbk.2.2, dataSet_same]
      · simp [mkMove, make_move, hw, hbk.1, hbk.2.1, hbk.2.2, dataSet_same]
      · simp [mkMove, make_move, hw, hbk.1, hbk.2.1, hbk.2.2]
      · simp [mkMove, make_move, hw, hbk.1, hbk.2.1, hbk.2.2]
      · simp [mkMove, make_move, hw, hbk.1, hbk.2.1, hbk.2.2]
      · simp [mkMove, make_move, hw, hbk.1, hbk.2.1, hbk.2.2, dataSet_same, pieceValue, kindValue]
        try omega
    · refine ⟨?_, ?_, ?_, ?_, ?_, ?_, ?_, ?_⟩
      · simp [mkMove, make_move, hw, hbk]
      · intro i hi
        simp [mkMove, make_move, hw, hbk, dataSet_ne _ _ hi]
      · simp [mkMove, make_move, hw, hbk, dataSet_same, pieceValue]
      · simp [mkMove, make_move, hw, hbk, dataSet_same, pieceValue]
      · simp [mkMove, make_move, hw, hbk]
      · simp [mkMove, make_move, hw, hbk]
      · simp [mkMove, make_move, hw, hbk]
      · simp [mkMove, make_move, hw, hbk, dataSet_same, pieceValue]

/-- Making a generated move from a consistent board yields a consistent
board. -/
theorem make_consistent {b : Board} {side : Player} {pid : PieceId} {m : Move}
    (hc : Consistent b = true) (hp : pid ∈ b.pieces side) (hm : m ∈ get_moves b pid) :
    Consistent (make_move b m).1 = true := by
  obtain ⟨hplayer, hinb, hgo⟩ := consistent_coll hc hp
  obtain ⟨dpos, hmeq, hdinb, hdne, henemy⟩ := get_moves_char hgo hm
  have hpidmem : pid ∈ b.pieces (b.pieceData pid).player := by
    rw [hplayer]
    exact hp
  rcases hgd : b.grid dpos with _ | qid
  · rw [hgd] at hmeq
    subst hmeq
    obtain ⟨hg, hd, hdpl, hdpos, hps, hk, hn, hs⟩ :=
      make_quiet_parts b pid (b.pieceData pid).pos dpos
    apply consistent_intro
    · intro pl i hi
      rw [hps] at hi
      obtain ⟨hipl, hiinb, higrid⟩ := consistent_coll hc hi
      by_cases h1 : i = pid
      · subst h1
        refine ⟨by rw [hdpl, hipl], by rw [hdpos]; exact hdinb, ?_⟩
        rw [hdpos, hg, gridSet_same]
      · have hposne1 : ¬ (b.pieceData i).pos = dpos := by
          intro h
          rw [h, hgd] at higrid
          exact Option.noConfusion higrid
        have hposne2 : ¬ (b.pieceData i).pos = (b.pieceData pid).pos := by
          intro h
          rw [h, hgo] at higrid
          exact h1 (by simpa using higrid.symm)
        rw [hd i h1]
        refine ⟨hipl, hiinb, ?_⟩
        rw [hg, gridSet_ne _ _ hposne1, gridSet_ne _ _ hposne2]
        exact higrid
    · intro pl
      rw [hps]
      exact consistent_nodup hc pl
    · intro p q hpb hq
      rw [hg] at hq
      by_cases h1 : p = dpos
      · subst h1
        rw [gridSet_same] at hq
        have hqpid : q = pid := by simpa using hq.symm
        subst hqpid
        rw [hdpl, hps, hdpos]
        exact ⟨hpidmem, rfl⟩
      · rw [gridSet_ne _ _ h1] at hq
        by_cases h2 : p = (b.pieceData pid).pos
        · subst h2
          rw [gridSet_same] at hq
          exact Option.noConfusion hq
        · rw [gridSet_ne _ _ h2] at hq
          obtain ⟨hqmem, hqpos⟩ := consistent_grid hc hpb hq
          have hqnepid : ¬ q = pid := by
            intro h
            subst h
            exact h2 hqpos.symm
          rw [hd q hqnepid, hps]
          exact ⟨hqmem, hqpos⟩
  · rw [hgd] at hmeq
    subst hmeq
    have hqenemy := henemy qid hgd
    have hqne : ¬ qid = pid := fun h => hqenemy (by rw [h])
    obtain ⟨hqmem0, hqpos0⟩ := consistent_grid hc hdinb hgd
    obtain ⟨hg, hd, hdpl, hdpos, hps, hk, hn, hs⟩ :=
      make_capture_parts b pid qid (b.pieceData pid).pos dpos
    apply consistent_intro
    · intro pl i hi
      rw [hps] at hi
      by_cases hpl : pl = (b.pieceData qid).player
      · subst hpl
        rw [piecesSet_same] at hi
        have hiq : ¬ i = qid := ((consistent_nodup hc _).mem_erase_iff.mp hi).1
        have hi2 : i ∈ b.pieces (b.pieceData qid).player := List.mem_of_mem_erase hi
        obtain ⟨hipl, hiinb, higrid⟩ := consistent_coll hc hi2
        by_cases h1 : i = pid
        · subst h1
          refine ⟨by rw [hdpl, hipl], by rw [hdpos]; exact hdinb, ?_⟩
          rw [hdpos, hg, gridSet_same]
        · have hposne1 : ¬ (b.pieceData i).pos = dpos := by
            intro h
            rw [h, hgd] at higrid
            exact hiq (by simpa using higrid.symm)
          have hposne2 : ¬ (b.pieceData i).pos = (b.pieceData pid).pos := by
            intro h
            rw [h, hgo] at higrid
            exact h1 (by simpa using higrid.symm)
          rw [hd i h1]
          refine ⟨hipl, hiinb, ?_⟩
          rw [hg, gridSet_ne _ _ hposne1, gridSet_ne _ _ hposne2]
          exact higrid
      · rw [piecesSet_ne _ _ hpl] at hi
        obtain ⟨hipl, hiinb, higrid⟩ := consistent_coll hc hi
        have hiq : ¬ i = qid := by
          intro h
          subst h
          exact hpl hipl.symm
        by_cases h1 : i = pid
        · subst h1
          refine ⟨by rw [hdpl, hipl], by rw [hdpos]; exact hdinb, ?_⟩
          rw [hdpos, hg, gridSet_same]
        · have hposne1 : ¬ (b.pieceData i).pos = dpos := by
            intro h
            rw [h, hgd] at higrid
            exact hiq (by simpa using higrid.symm)
          have hposne2 : ¬ (b.pieceData i).pos = (b.pieceData pid).pos := by
            intro h
            rw [h, hgo] at higrid
            exact h1 (by simpa using higrid.symm)
          rw [hd i h1]
          refine ⟨hipl, hiinb, ?_⟩
          rw [hg, gridSet_ne _ _ hposne1, gridSet_ne _ _ hposne2]
          exact higrid
    · intro pl
      rw [hps]
      by_cases hpl : pl = (b.pieceData qid).player
      · subst hpl
        rw [piecesSet_same]
        exact (consistent_nodup hc _).erase qid
      · rw [piecesSet_ne _ _ hpl]
        exact consistent_nodup hc pl
    · intro p q hpb hq
      rw [hg] at hq
      by_cases h1 : p = dpos
      · subst h1
        rw [gridSet_same] at hq
        have hqpid : q = pid := by simpa using hq.symm
        subst hqpid
        rw [hdpl, hps, hdpos]
        refine ⟨?_, rfl⟩
        rw [piecesSet_ne _ _ (fun h => hqenemy h.symm)]
        exact hpidmem
      · rw [gridSet_ne _ _ h1] at hq
        by_cases h2 : p = (b.pieceData pid).pos
        · subst h2
          rw [gridSet_same] at hq
          exact Option.noConfusion hq
        · rw [gridSet_ne _ _ h2] at hq
          obtain ⟨hqmem, hqpos⟩ := consistent_grid hc hpb hq
          have hqnepid : ¬ q = pid := by
            intro h
            subst h
            exact h2 hqpos.symm
          have hqneqid : ¬ q = qid := by
            intro h
            subst h
            exact h1 (hqpos0 ▸ hqpos ▸ rfl)
          rw [hd q hqnepid, hps]
          refine ⟨?_, hqpos⟩
          by_cases hpl : (b.pieceData q).player = (b.pieceData qid).player
          · rw [hpl, piecesSet_same]
            refine (consistent_nodup hc _).mem_erase_iff.mpr ⟨hqneqid, ?_⟩
            rw [← hpl]
            exact hqmem
          · rw [piecesSet_ne _ _ hpl]
            exact hqmem

theorem sum_side_update {b b2 : Board} {pid : PieceId}
    (hc : Consistent b = true)
    (hpidmem : pid ∈ b.pieces (b.pieceData pid).player)
    (hps : b2.pieces = b.pieces)
    (hd : ∀ i, ¬ i = pid → b2.pieceData i = b.pieceData i) :
    ∀ pl, ((b2.pieces pl).map (fun i => pieceValue (b2.pieceData i))).sum =
      ((b.pieces pl).map (fun i => pieceValue (b.pieceData i))).sum +
      (if (b.pieceData pid).player = pl then
        pieceValue (b2.pieceData pid) - pieceValue (b.pieceData pid) else 0) := by
  intro pl
  rw [hps]
  by_cases hpl : (b.pieceData pid).player = pl
  · rw [if_pos hpl]
    exact sum_update _ _ (consistent_nodup hc pl) (hpl ▸ hpidmem)
      (fun j hj => by simp only [hd j hj])
  · rw [if_neg hpl]
    have hmc : (b.pieces pl).map (fun i => pieceValue (b2.pieceData i)) =
        (b.pieces pl).map (fun i => pieceValue (b.pieceData i)) := by
      apply List.map_congr_left
      intro a ha
      have hapl := (consistent_coll hc ha).1
      have hane : ¬ a = pid := fun h => hpl (h ▸ hapl)
      simp only [hd a hane]
    rw [hmc]
    omega

theorem sum_side_capture {b b2 : Board} {pid qid : PieceId}
    (hc : Consistent b = true)
    (hpidmem : pid ∈ b.pieces (b.pieceData pid).player)
    (hqmem : qid ∈ b.pieces (b.pieceData qid).player)
    (hdiff : ¬ (b.pieceData qid).player = (b.pieceData pid).player)
    (hps : b2.pieces = piecesSet b.pieces (b.pieceData qid).player
      ((b.pieces (b.pieceData qid).player).erase qid))
    (hd : ∀ i, ¬ i = pid → b2.pieceData i = b.pieceData i) :
    ∀ pl, ((b2.pieces pl).map (fun i => pieceValue (b2.pieceData i))).sum =
      ((b.pieces pl).map (fun i => pieceValue (b.pieceData i))).sum +
      (if (b.pieceData pid).player = pl then
        pieceValue (b2.pieceData pid) - pieceValue (b.pieceData pid) else 0) -
      (if (b.pieceData qid).player = pl then pieceValue (b.pieceData qid) else 0) := by
  intro pl
  rw [hps]
  by_cases hpl1 : pl = (b.pieceData qid).player
  · subst hpl1
    rw [piecesSet_same, if_neg (fun h => hdiff h.symm), if_pos rfl]
    have hmc : ((b.pieces (b.pieceData qid).player).erase qid).map
        (fun i => pieceValue (b2.pieceData i)) =
        ((b.pieces (b.pieceData qid).player).erase qid).map
        (fun i => pieceValue (b.pieceData i)) := by
      apply List.map_congr_left
      intro a ha
      have hapl := (consistent_coll hc (List.mem_of_mem_erase ha)).1
      have hane : ¬ a = pid := fun h => hdiff (by rw [← hapl, h])
      simp only [hd a hane]
    rw [hmc, sum_erase _ hqmem]
    omega
  · rw [piecesSet_ne _ _ hpl1,
      if_neg (show ¬ (b.pieceData qid).player = pl from fun h => hpl1 h.symm)]
    by_cases hpl2 : (b.pieceData pid).player = pl
    · rw [if_pos hpl2]
      rw [sum_update (fun i => pieceValue (b.pieceData i)) _
        (consistent_nodup hc pl) (hpl2 ▸ hpidmem)
        (fun j hj => by simp only [hd j hj])]
      omega
    · rw [if_neg hpl2]
      have hmc : (b.pieces pl).map (fun i => pieceValue (b2.pieceData i)) =
          (b.pieces pl).map (fun i => pieceValue (b.pieceData i)) := by
        apply List.map_congr_left
        intro a ha
        have hapl := (consistent_coll hc ha).1
        have hane : ¬ a = pid := fun h => hpl2 (h ▸ hapl)
        simp only [hd a hane]
      rw [hmc]
      omega

/-- Making a generated move preserves the score invariant: the score stays
equal to the signed material sum over the collections. -/
theorem make_score {b : Board} {side : Player} {pid : PieceId} {m : Move}
    (hc : Consistent b = true) (hp : pid ∈ b.pieces side) (hm : m ∈ get_moves b pid)
    (hs : b.score = sumValues b) :
    (make_move b m).1.score = sumValues (make_move b m).1 := by
  obtain ⟨hplayer, hinb, hgo⟩ := consistent_coll hc hp
  obtain ⟨dpos, hmeq, hdinb, hdne, henemy⟩ := get_moves_char hgo hm
  have hpidmem : pid ∈ b.pieces (b.pieceData pid).player := by
    rw [hplayer]
    exact hp
  rcases hgd : b.grid dpos with _ | qid
  · rw [hgd] at hmeq
    subst hmeq
    obtain ⟨hg, hd, hdpl, hdpos, hps, hk, hn, hsc⟩ :=
      make_quiet_parts b pid (b.pieceData pid).pos dpos
    have hDelta : sumValues (make_move b (mkMove (b.pieceData pid).pos pid dpos none)).1 =
        sumValues b +
        (pieceValue ((make_move b (mkMove (b.pieceData pid).pos pid dpos none)).1.pieceData pid) -
          pieceValue (b.pieceData pid)) := by
      unfold sumValues
      rw [sum_side_update hc hpidmem hps hd Player.white,
        sum_side_update hc hpidmem hps hd Player.black]
      cases hply : (b.pieceData pid).player
      · simp
        omega
      · simp
        omega
    rw [hsc, hDelta, hs]
  · rw [hgd] at hmeq
    subst hmeq
    have hqenemy := henemy qid hgd
    obtain ⟨hqmem0, hqpos0⟩ := consistent_grid hc hdinb hgd
    obtain ⟨hg, hd, hdpl, hdpos, hps, hk, hn, hsc⟩ :=
      make_capture_parts b pid qid (b.pieceData pid).pos dpos
    have hDelta : sumValues (make_move b (mkMove (b.pieceData pid).pos pid dpos (some qid))).1 =
        sumValues b +
        (pieceValue ((make_move b (mkMove (b.pieceData pid).pos pid dpos (some qid))).1.pieceData pid) -
          pieceValue (b.pieceData pid)) - pieceValue (b.pieceData qid) := by
      unfold sumValues
      rw [sum_side_capture hc hpidmem hqmem0 hqenemy hps hd Player.white,
        sum_side_capture hc hpidmem hqmem0 hqenemy hps hd Player.black]
      cases hply : (b.pieceData pid).player <;> cases hqply : (b.pieceData qid).player
      · exact absurd (by rw [hply, hqply]) hqenemy
      · simp
        omega
      · simp
        omega
      · exact absurd (by rw [hply, hqply]) hqenemy
    rw [hsc, hDelta, hs]
    omega

theorem walkDir_congr {ag bg : Pos → Option PieceId} {ad bd : PieceId → PieceSt}
    (hg : ag = bg) (hd : ad = bd) (sc nu : Int) (aps bps : Player → List PieceId)
    (ak bk : Player → PieceId) (sk : PieceKind) (pos : Pos) (cur : PieceId) :
    ∀ vs, walkDir ⟨ag, ad, sc, nu, aps, ak⟩ sk pos cur vs =
      walkDir ⟨bg, bd, sc, nu, bps, bk⟩ sk pos cur vs := by
  subst hg hd
  intro vs
  induction vs with
  | nil => rfl
  | cons v rest ih =>
    simp only [walkDir, ih]

theorem get_moves_congr {a b : Board} (h : ObsEq a b) (pid : PieceId) :
    get_moves a pid = get_moves b pid := by
  obtain ⟨hg, hd, hsc, hn, hperm, hk⟩ := h
  obtain ⟨ag, ad, asc, an, aps, ak⟩ := a
  obtain ⟨bg, bd, bsc, bn, bps, bk⟩ := b
  simp only at hg hd hsc hn hperm hk
  have hgf : ag = bg := funext hg
  have hdf : ad = bd := funext hd
  subst hgf hdf hsc hn
  unfold get_moves
  simp only
  rcases ag (ad pid).pos with _ | cur
  · rfl
  · have hwd : walkDir ⟨ag, ad, asc, an, aps, ak⟩ (ad pid).kind (ad pid).pos cur =
        walkDir ⟨ag, ad, asc, an, bps, bk⟩ (ad pid).kind (ad pid).pos cur :=
      funext fun vs => walkDir_congr rfl rfl asc an aps bps ak bk _ _ cur vs
    dsimp only
    rw [hwd]

theorem make_congr {a b : Board} (h : ObsEq a b) (m : Move) :
    ObsEq (make_move a m).1 (make_move b m).1 ∧
    (make_move a m).2 = (make_move b m).2 := by
  obtain ⟨hg, hd, hsc, hn, hperm, hk⟩ := h
  obtain ⟨ag, ad, asc, an, aps, ak⟩ := a
  obtain ⟨bg, bd, bsc, bn, bps, bk⟩ := b
  simp only at hg hd hsc hn hperm hk
  have hgf : ag = bg := funext hg
  have hdf : ad = bd := funext hd
  have hkf : ak = bk := funext hk
  subst hgf hdf hsc hn hkf
  rcases m with ⟨mo, mop, mdst, mdp, mpc⟩
  rcases mo with _ | o
  · exact ⟨⟨fun _ => rfl, fun _ => rfl, rfl, rfl, hperm, fun _ => rfl⟩, rfl⟩
  rcases mdst with _ | d
  · exact ⟨⟨fun _ => rfl, fun _ => rfl, rfl, rfl, hperm, fun _ => rfl⟩, rfl⟩
  rcases mop with _ | opid
  · exact ⟨⟨fun _ => rfl, fun _ => rfl, rfl, rfl, hperm, fun _ => rfl⟩, rfl⟩
  rcases mdp with _ | qid
  · by_cases hw : (ad opid).kind = .pawn ∧ (ad opid).player = .white ∧ d.2 = 7
    · refine ⟨⟨fun p => ?_, fun i => ?_, ?_, ?_, fun pl => ?_, fun pl => ?_⟩, ?_⟩ <;>
        simp [make_move, hw.1, hw.2.1, hw.2.2, hperm]
    · by_cases hbk : (ad opid).kind = .pawn ∧ (ad opid).player = .black ∧ d.2 = 0
      · refine ⟨⟨fun p => ?_, fun i => ?_, ?_, ?_, fun pl => ?_, fun pl => ?_⟩, ?_⟩ <;>
          simp [make_move, hw, hbk.1, hbk.2.1, hbk.2.2, hperm]
      · refine ⟨⟨fun p => ?_, fun i => ?_, ?_, ?_, fun pl => ?_, fun pl => ?_⟩, ?_⟩ <;>
          simp [make_move, hw, hbk, hperm]
  · by_cases hw : (ad opid).kind = .pawn ∧ (ad opid).player = .white ∧ d.2 = 7
    · refine ⟨⟨fun p => ?_, fun i => ?_, ?_, ?_, fun pl => ?_, fun pl => ?_⟩, ?_⟩ <;>
        simp [make_move, hw.1, hw.2.1, hw.2.2, piecesSet]
      by_cases hpl : pl = (ad qid).player <;> simp [hpl]
      · exact (hperm _).erase qid
      · exact hperm pl
    · by_cases hbk : (ad opid).kind = .pawn ∧ (ad opid).player = .black ∧ d.2 = 0
      · refine ⟨⟨fun p => ?_, fun i => ?_, ?_, ?_, fun pl => ?_, fun pl => ?_⟩, ?_⟩ <;>
          simp [make_move, hw, hbk.1, hbk.2.1, hbk.2.2, piecesSet]
        by_cases hpl : pl = (ad qid).player <;> simp [hpl]
        · exact (hperm _).erase qid
        · exact hperm pl
      · refine ⟨⟨fun p => ?_, fun i => ?_, ?_, ?_, fun pl => ?_, fun pl => ?_⟩, ?_⟩ <;>
          simp [make_move, hw, hbk, piecesSet]
        by_cases hpl : pl = (ad qid).player <;> simp [hpl]
        · exact (hperm _).erase qid
        · exact hperm pl

theorem unmake_congr {a b : Board} (h : ObsEq a b) (m : Move) :
    ObsEq (unmake_move a m).1 (unmake_move b m).1 ∧
    (unmake_move a m).2 = (unmake_move b m).2 := by
  obtain ⟨hg, hd, hsc, hn, hperm, hk⟩ := h
  obtain ⟨ag, ad, asc, an, aps, ak⟩ := a
  obtain ⟨bg, bd, bsc, bn, bps, bk⟩ := b
  simp only at hg hd hsc hn hperm hk
  have hgf : ag = bg := funext hg
  have hdf : ad = bd := funext hd
  have hkf : ak = bk := funext hk
  subst hgf hdf hsc hn hkf
  rcases m with ⟨mo, mop, mdst, mdp, mpc⟩
  rcases mo with _ | o
  · exact ⟨⟨fun _ => rfl, fun _ => rfl, rfl, rfl, hperm, fun _ => rfl⟩, rfl⟩
  rcases mdst with _ | d
  · exact ⟨⟨fun _ => rfl, fun _ => rfl, rfl, rfl, hperm, fun _ => rfl⟩, rfl⟩
  rcases mop with _ | opid
  · exact ⟨⟨fun _ => rfl, fun _ => rfl, rfl, rfl, hperm, fun _ => rfl⟩, rfl⟩
  rcases mdp with _ | qid
  · cases mpc
    · refine ⟨⟨fun p => ?_, fun i => ?_, ?_, ?_, fun pl => ?_, fun pl => ?_⟩, ?_⟩ <;>
        simp [unmake_move, hperm]
    · refine ⟨⟨fun p => ?_, fun i => ?_, ?_, ?_, fun pl => ?_, fun pl => ?_⟩, ?_⟩ <;>
        simp [unmake_move, hperm]
  · cases mpc
    · refine ⟨⟨fun p => ?_, fun i => ?_, ?_, ?_, fun pl => ?_, fun pl => ?_⟩, ?_⟩ <;>
        simp [unmake_move, piecesSet]
      by_cases hpl : pl = (ad qid).player <;> simp [hpl]
      · exact (hperm _).append_right [qid]
      · exact hperm pl
    · refine ⟨⟨fun p => ?_, fun i => ?_, ?_, ?_, fun pl => ?_, fun pl => ?_⟩, ?_⟩ <;>
        simp [unmake_move, piecesSet]
      by_cases hpl : pl = (ad qid).player <;> simp [hpl]
      · exact (hperm _).append_right [qid]
      · exact hperm pl

theorem consistent_congr {a b : Board} (h : ObsEq a b) (hc : Consistent a = true) :
    Consistent b = true := by
  apply consistent_intro
  · intro pl i hi
    have hi2 : i ∈ a.pieces pl := (h.perm pl).mem_iff.mpr hi
    obtain ⟨h1, h2, h3⟩ := consistent_coll hc hi2
    rw [h.data i] at h1 h2
    rw [h.data i, h.grid _] at h3
    exact ⟨h1, h2, h3⟩
  · intro pl
    exact ((h.perm pl).nodup_iff).mp (consistent_nodup hc pl)
  · intro p q hpinb hq
    rw [← h.grid p] at hq
    obtain ⟨h1, h2⟩ := consistent_grid hc hpinb hq
    rw [h.data q] at h2
    refine ⟨?_, h2⟩
    have hpeq : (a.pieceData q).player = (b.pieceData q).player := by rw [h.data q]
    rw [← hpeq]
    exact ((h.perm _).mem_iff).mp h1

theorem sumValues_congr {a b : Board} (h : ObsEq a b) : sumValues a = sumValues b := by
  unfold sumValues
  have hmap : ∀ pl, ((a.pieces pl).map fun i => pieceValue (a.pieceData i)).sum =
      ((b.pieces pl).map fun i => pieceValue (b.pieceData i)).sum := by
    intro pl
    have hfun : (fun i => pieceValue (a.pieceData i)) = fun i => pieceValue (b.pieceData i) := by
      funext i
      rw [h.data i]
    rw [hfun]
    exact ((h.perm pl).map _).sum_eq
  rw [hmap .white, hmap .black]

theorem stackInv_congr {a b : Board} (h : ObsEq a b) :
    ∀ st, StackInv st a → StackInv st b := by
  intro st
  cases st with
  | nil => exact fun _ => trivial
  | cons m st =>
    intro hsi
    obtain ⟨b0, side, pid, m0, hc0, hs0, hsi0, hp0, hm0, hmk, hobs⟩ := hsi
    exact ⟨b0, side, pid, m0, hc0, hs0, hsi0, hp0, hm0, hmk, h.symm.trans hobs⟩

theorem init_consistent : Consistent initBoard = true := by decide

theorem init_score : initBoard.score = sumValues initBoard := by decide

/-- The reachability invariant: every state reachable from the initial board
under the stack discipline is consistent, has its score equal to the signed
material sum, and carries a well-formed stack of pending moves. -/
theorem reach_inv : ∀ s, Reach s →
    Consistent s.1 = true ∧ s.1.score = sumValues s.1 ∧ StackInv s.2 s.1 := by
  intro s h
  unfold Reach at h
  induction h with
  | refl => exact ⟨init_consistent, init_score, trivial⟩
  | tail hab hbc ih =>
    rcases hbc with @⟨b, st, side, pid, m, hpid, hm⟩ | @⟨b, st, m⟩
    · obtain ⟨hc, hs, hsi⟩ := ih
      refine ⟨make_consistent hc hpid hm, make_score hc hpid hm hs, ?_⟩
      exact ⟨b, side, pid, m, hc, hs, hsi, hpid, hm, rfl, ObsEq.refl _⟩
    · obtain ⟨hc, hs, hsi⟩ := ih
      obtain ⟨b0, side, pid, m0, hc0, hs0, hsi0, hp0, hm0, hmk, hobs⟩ := hsi
      have hum := unmake_congr hobs m
      have hrt := make_unmake hc0 hp0 hm0
      rw [hmk] at hrt
      have hobs2 : ObsEq (unmake_move b m).1 b0 := hum.1.trans hrt.1
      refine ⟨consistent_congr hobs2.symm hc0, ?_, stackInv_congr hobs2.symm st hsi0⟩
      rw [hobs2.score, sumValues_congr hobs2]
      exact hs0

theorem get_moves_pc {b : Board} {pid : PieceId} {m : Move}
    (hm : m ∈ get_moves b pid) : m.pawn_change = false := by
  unfold get_moves at hm
  rcases hcur : b.grid (b.pieceData pid).pos with _ | cur
  · rw [hcur] at hm
    simp at hm
  · rw [hcur] at hm
    dsimp only at hm
    obtain ⟨dir, hdir, hmem⟩ := List.mem_flatMap.mp hm
    obtain ⟨v, hv, hmeq, _, _⟩ := walkDir_mem hmem
    rw [hmeq]

theorem construct_candidates_pc {b : Board} {pl : Player} {m : Move}
    (hm : m ∈ construct_candidates b pl) : m.pawn_change = false := by
  obtain ⟨pid, _, hmem⟩ := List.mem_flatMap.mp hm
  exact get_moves_pc hmem

theorem construct_candidates_mem {b : Board} {pl : Player} {m : Move}
    (hm : m ∈ construct_candidates b pl) :
    ∃ pid ∈ b.pieces pl, m ∈ get_moves b pid :=
  List.mem_flatMap.mp hm

/-- The move handed back by `unmake_move` after a `make_move` is the original
record: the promotion flag is set and then cleared again. -/
theorem unmake_make_snd {b b2 : Board} {c : Move} (hpc : c.pawn_change = false) :
    (unmake_move b2 (make_move b c).2).2 = c := by
  rcases c with ⟨co, cop, cd, cdp, cpc⟩
  simp only [Move.pawn_change] at hpc
  subst hpc
  rcases co with _ | o
  · simp [make_move, unmake_move]
  rcases cd with _ | d
  · simp [make_move, unmake_move]
  rcases cop with _ | opid
  · simp [make_move, unmake_move]
  rcases cdp with _ | qid
  · by_cases hw : (b.pieceData opid).kind = .pawn ∧ (b.pieceData opid).player = .white ∧ d.2 = 7
    · simp [make_move, unmake_move, hw.1, hw.2.1, hw.2.2]
    · by_cases hbk : (b.pieceData opid).kind = .pawn ∧ (b.pieceData opid).player = .black ∧ d.2 = 0
      · simp [make_move, unmake_move, hw, hbk.1, hbk.2.1, hbk.2.2]
      · simp [make_move, unmake_move, hw, hbk]
  · by_cases hw : (b.pieceData opid).kind = .pawn ∧ (b.pieceData opid).player = .white ∧ d.2 = 7
    · simp [make_move, unmake_move, hw.1, hw.2.1, hw.2.2]
    · by_cases hbk : (b.pieceData opid).kind = .pawn ∧ (b.pieceData opid).player = .black ∧ d.2 = 0
      · simp [make_move, unmake_move, hw, hbk.1, hbk.2.1, hbk.2.2]
      · simp [make_move, unmake_move, hw, hbk]

/-- The moves carried through the candidate loop come back unchanged. -/
theorem AI_scoredAux_fst (cont : Board → Player → ℚ × Board) (pl : Player) (att : ℚ) :
    ∀ (cs : List Move) (b : Board), (∀ c ∈ cs, c.pawn_change = false) →
      (AI_scoredAux cont pl att b cs).1.map Prod.fst = cs := by
  intro cs
  induction cs with
  | nil => intro b _; rfl
  | cons c rest ih =>
    intro b hpc
    simp only [AI_scoredAux, List.map_cons]
    rw [unmake_make_snd (hpc c (List.mem_cons_self _ _)),
      ih _ fun c2 hc2 => hpc c2 (List.mem_cons_of_mem _ hc2)]

theorem foldl_max_mem (xs : List ℚ) : ∀ a, xs.foldl max a ∈ a :: xs := by
  induction xs with
  | nil => intro a; simp
  | cons x xs ih =>
    intro a
    rw [List.foldl_cons]
    rcases List.mem_cons.mp (ih (max a x)) with h | h
    · rcases max_choice a x with hm | hm
      · rw [h, hm]
        exact List.mem_cons_self _ _
      · rw [h, hm]
        exact List.mem_cons_of_mem _ (List.mem_cons_self _ _)
    · exact List.mem_cons_of_mem _ (List.mem_cons_of_mem _ h)

theorem le_foldl_max (xs : List ℚ) : ∀ a, a ≤ xs.foldl max a ∧ ∀ y ∈ xs, y ≤ xs.foldl max a := by
  induction xs with
  | nil =>
    intro a
    exact ⟨le_refl a, by simp⟩
  | cons x xs ih =>
    intro a
    rw [List.foldl_cons]
    obtain ⟨h1, h2⟩ := ih (max a x)
    refine ⟨le_trans (le_max_left a x) h1, ?_⟩
    intro y hy
    rcases List.mem_cons.mp hy with heq | hy2
    · rw [heq]
      exact le_trans (le_max_right a x) h1
    · exact h2 y hy2

theorem foldl_min_mem (xs : List ℚ) : ∀ a, xs.foldl min a ∈ a :: xs := by
  induction xs with
  | nil => intro a; simp
  | cons x xs ih =>
    intro a
    rw [List.foldl_cons]
    rcases List.mem_cons.mp (ih (min a x)) with h | h
    · rcases min_choice a x with hm | hm
      · rw [h, hm]
        exact List.mem_cons_self _ _
      · rw [h, hm]
        exact List.mem_cons_of_mem _ (List.mem_cons_self _ _)
    · exact List.mem_cons_of_mem _ (List.mem_cons_of_mem _ h)

theorem foldl_min_le (xs : List ℚ) : ∀ a, xs.foldl min a ≤ a ∧ ∀ y ∈ xs, xs.foldl min a ≤ y := by
  induction xs with
  | nil =>
    intro a
    exact ⟨le_refl a, by simp⟩
  | cons x xs ih =>
    intro a
    rw [List.foldl_cons]
    obtain ⟨h1, h2⟩ := ih (min a x)
    refine ⟨le_trans h1 (min_le_left a x), ?_⟩
    intro y hy
    rcases List.mem_cons.mp hy with heq | hy2
    · rw [heq]
      exact le_trans h1 (min_le_right a x)
    · exact h2 y hy2

/-- The candidate loop restores the board it was handed, provided the
continuation does. -/
theorem AI_scoredAux_preserve (cont : Board → Player → ℚ × Board)
    (hcont : ∀ b pl, Consistent b = true → ObsEq (cont b pl).2 b)
    (pl : Player) (att : ℚ) :
    ∀ (cs : List Move) (b : Board), Consistent b = true →
      (∀ c ∈ cs, ∃ side pid, pid ∈ b.pieces side ∧ c ∈ get_moves b pid) →
      ObsEq (AI_scoredAux cont pl att b cs).2 b := by
  intro cs
  induction cs with
  | nil =>
    intro b _ _
    exact ObsEq.refl b
  | cons c rest ih =>
    intro b hc hv
    obtain ⟨side, pid, hpid, hcm⟩ := hv c (List.mem_cons_self _ _)
    simp only [AI_scoredAux]
    have hrv := hcont (make_move b c).1 (otherPlayer pl) (make_consistent hc hpid hcm)
    have hum := unmake_congr hrv (make_move b c).2
    have hrt := make_unmake hc hpid hcm
    have hobs3 : ObsEq
        (unmake_move (cont (make_move b c).1 (otherPlayer pl)).2 (make_move b c).2).1 b :=
      hum.1.trans hrt.1
    have hcons3 : Consistent
        (unmake_move (cont (make_move b c).1 (otherPlayer pl)).2 (make_move b c).2).1 = true :=
      consistent_congr hobs3.symm hc
    have hv3 : ∀ c2 ∈ rest, ∃ side2 pid2,
        pid2 ∈ (unmake_move (cont (make_move b c).1 (otherPlayer pl)).2
          (make_move b c).2).1.pieces side2 ∧
        c2 ∈ get_moves (unmake_move (cont (make_move b c).1 (otherPlayer pl)).2
          (make_move b c).2).1 pid2 := by
      intro c2 hc2
      obtain ⟨s2, p2, hp2, hm2⟩ := hv c2 (List.mem_cons_of_mem _ hc2)
      refine ⟨s2, p2, ((hobs3.perm s2).mem_iff).mpr hp2, ?_⟩
      rw [get_moves_congr hobs3 p2]
      exact hm2
    exact (ih _ hcons3 hv3).trans hobs3

/-- The recursive search value function restores the board. -/
theorem AI_value_preserve : ∀ (d : Nat) (b : Board) (pl : Player),
    Consistent b = true → ObsEq (AI_value d b pl).2 b := by
  intro d
  induction d with
  | zero =>
    intro b pl _
    exact ObsEq.refl b
  | succ d ih =>
    intro b pl hc
    simp only [AI_value]
    by_cases hcand : (construct_candidates b pl).isEmpty
    · rw [if_pos hcand]
      exact ObsEq.refl b
    · rw [if_neg hcand]
      apply AI_scoredAux_preserve (AI_value d) (fun b2 p2 hc2 => ih b2 p2 hc2) pl _ _ b hc
      intro c hcmem
      obtain ⟨pid, hpid, hm⟩ := construct_candidates_mem hcmem
      exact ⟨pl, pid, hpid, hm⟩

/-- Python function `AI_choose_move` hands the board back observationally unchanged. -/
theorem AI_choose_set_preserve (b : Board) (pl : Player) (depth : Nat) (att : ℚ)
    (hc : Consistent b = true) : ObsEq (AI_choose_set b pl depth att).2 b := by
  cases depth with
  | zero => exact ObsEq.refl b
  | succ d =>
    simp only [AI_choose_set]
    by_cases hcand : (construct_candidates b pl).isEmpty
    · rw [if_pos hcand]
      exact ObsEq.refl b
    · rw [if_neg hcand]
      apply AI_scoredAux_preserve (AI_value d) (fun b2 p2 hc2 => AI_value_preserve d b2 p2 hc2)
        pl _ _ b hc
      intro c hcmem
      obtain ⟨pid, hpid, hm⟩ := construct_candidates_mem hcmem
      exact ⟨pl, pid, hpid, hm⟩

theorem bestVal_mem (pl : Player) {l : List ℚ} (hl : ¬ l = []) : bestVal pl l ∈ l := by
  cases l with
  | nil => exact absurd rfl hl
  | cons x xs =>
    cases pl
    · simp only [bestVal]
      exact foldl_max_mem xs x
    · simp only [bestVal]
      exact foldl_min_mem xs x

theorem bestVal_white_ge {l : List ℚ} {y : ℚ} (hy : y ∈ l) : y ≤ bestVal .white l := by
  cases l with
  | nil => simp at hy
  | cons x xs =>
    simp only [bestVal]
    rcases List.mem_cons.mp hy with heq | h2
    · rw [heq]
      exact (le_foldl_max xs x).1
    · exact (le_foldl_max xs x).2 y h2

theorem bestVal_black_le {l : List ℚ} {y : ℚ} (hy : y ∈ l) : bestVal .black l ≤ y := by
  cases l with
  | nil => simp at hy
  | cons x xs =>
    simp only [bestVal]
    rcases List.mem_cons.mp hy with heq | h2
    · rw [heq]
      exact (foldl_min_le xs x).1
    · exact (foldl_min_le xs x).2 y h2

/-- Candidate scores are affine in the caller-supplied attenuation: the
board evolution and the returned moves are independent of it, and each score
equals its value at attenuation 0 plus attenuation times an att-independent
continuation value — because the recursive continuation takes no attenuation
argument at all. -/
theorem AI_scoredAux_att (cont : Board → Player → ℚ × Board) (pl : Player) (att : ℚ) :
    ∀ (cs : List Move) (b : Board),
      (AI_scoredAux cont pl att b cs).2 = (AI_scoredAux cont pl 0 b cs).2 ∧
      (AI_scoredAux cont pl att b cs).1.map Prod.fst =
        (AI_scoredAux cont pl 0 b cs).1.map Prod.fst ∧
      (AI_scoredAux cont pl att b cs).1.map Prod.snd =
        List.zipWith (fun s0 s1 => s0 + att * (s1 - s0))
          ((AI_scoredAux cont pl 0 b cs).1.map Prod.snd)
          ((AI_scoredAux cont pl 1 b cs).1.map Prod.snd) := by
  intro cs
  induction cs with
  | nil =>
    intro b
    exact ⟨rfl, rfl, rfl⟩
  | cons c rest ih =>
    intro b
    obtain ⟨h2, h1, h3⟩ :=
      ih (unmake_move (cont (make_move b c).1 (otherPlayer pl)).2 (make_move b c).2).1
    simp only [AI_scoredAux, List.map_cons, List.zipWith_cons_cons]
    refine ⟨h2, by rw [h1], ?_⟩
    rw [h3]
    congr 1
    ring

/-- Claim C1: for every consistent board state and every move generated by
get_moves for a piece of that state, make_move followed by unmake_move
restores the Board to a state observationally identical to the original:
same grid occupancy, same piece store (hence piece positions), same score,
same num_pieces, and the same multiset of pieces in each side's
collection. -/
theorem C1_make_unmake_roundtrip (b : Board) (side : Player) (pid : PieceId) (m : Move)
    (hc : Consistent b = true) (hp : pid ∈ b.pieces side) (hm : m ∈ get_moves b pid) :
    ObsEq (unmake_move (make_move b m).1 (make_move b m).2).1 b :=
  (make_unmake hc hp hm).1

theorem C1_witness :
    Consistent initBoard = true ∧ 25 ∈ initBoard.pieces .black ∧
    mA ∈ get_moves initBoard 25 ∧
    ObsEq (unmake_move (make_move initBoard mA).1 (make_move initBoard mA).2).1 initBoard :=
  ⟨by decide, by decide, by decide,
   C1_make_unmake_roundtrip initBoard .black 25 mA (by decide) (by decide) (by decide)⟩

/-- Claim C3: after any sequence of make_move and unmake_move calls obeying the
stack discipline and starting from the initial Board, Board.score equals
the signed sum of the values of all pieces in the two collections, with
promoted pawns counted at their current (queen) value. -/
theorem C3_score_invariant (b : Board) (st : List Move) (h : Reach (b, st)) :
    b.score = sumValues b :=
  (reach_inv (b, st) h).2.1

theorem C3_witness :
    Reach ((make_move initBoard mA).1, [(make_move initBoard mA).2]) ∧
    (make_move initBoard mA).1.score = sumValues (make_move initBoard mA).1 := by
  have hr : Reach ((make_move initBoard mA).1, [(make_move initBoard mA).2]) :=
    Relation.ReflTransGen.single (Tr.make initBoard [] .black 25 mA (by decide) (by decide))
  exact ⟨hr, C3_score_invariant _ _ hr⟩

/-- Claim C4: with depth at least 1 and at least one candidate, every move the
final random choice may return is one of the candidate moves, and its
score_change (the paired rational) is an attained candidate score that is
maximal among all candidate scores when the player is White and minimal
when the player is Black; the candidate scores are exactly those produced
by the loop computing score-after minus score-before plus attenuation times
the recursive continuation value. -/
theorem C4_best_move (b : Board) (pl : Player) (depth : Nat) (att : ℚ)
    (hd : ¬ depth = 0) (hcand : ¬ construct_candidates b pl = []) :
    ¬ (AI_choose_set b pl depth att).1 = [] ∧
    ∀ x ∈ (AI_choose_set b pl depth att).1,
      x.1 ∈ construct_candidates b pl ∧
      x.2 ∈ (AI_scoredAux (AI_value (depth - 1)) pl att b
        (construct_candidates b pl)).1.map Prod.snd ∧
      ∀ y ∈ (AI_scoredAux (AI_value (depth - 1)) pl att b
          (construct_candidates b pl)).1,
        (pl = .white → y.2 ≤ x.2) ∧ (pl = .black → x.2 ≤ y.2) := by
  cases depth with
  | zero => exact absurd rfl hd
  | succ d =>
    simp only [AI_choose_set, Nat.add_sub_cancel]
    have hne : ¬ (construct_candidates b pl).isEmpty = true := by
      intro h
      exact hcand (List.isEmpty_iff.mp h)
    rw [if_neg hne]
    dsimp only
    have hfst := AI_scoredAux_fst (AI_value d) pl att (construct_candidates b pl) b
      (fun c hc => construct_candidates_pc hc)
    have hscne : ¬ (AI_scoredAux (AI_value d) pl att b (construct_candidates b pl)).1 = [] := by
      intro h
      rw [h] at hfst
      exact hcand hfst.symm
    have hmapne : ¬ ((AI_scoredAux (AI_value d) pl att b
        (construct_candidates b pl)).1.map Prod.snd) = [] := by
      intro h
      exact hscne (List.map_eq_nil_iff.mp h)
    have hbmem := bestVal_mem pl hmapne
    obtain ⟨y0, hy0, hy0e⟩ := List.mem_map.mp hbmem
    constructor
    · intro hfil
      have : y0 ∈ (AI_scoredAux (AI_value d) pl att b (construct_candidates b pl)).1.filter
          (fun x => decide (x.2 = bestVal pl ((AI_scoredAux (AI_value d) pl att b
            (construct_candidates b pl)).1.map Prod.snd))) := by
        rw [List.mem_filter]
        exact ⟨hy0, by rw [hy0e]; simp⟩
      rw [hfil] at this
      simp at this
    · intro x hx
      rw [List.mem_filter] at hx
      obtain ⟨hxmem, hxbest⟩ := hx
      have hxbest2 : x.2 = bestVal pl ((AI_scoredAux (AI_value d) pl att b
          (construct_candidates b pl)).1.map Prod.snd) := by
        simpa using hxbest
      refine ⟨?_, ?_, ?_⟩
      · rw [← hfst]
        exact List.mem_map_of_mem Prod.fst hxmem
      · rw [hxbest2]
        exact hbmem
      · intro y hy
        have hymem : y.2 ∈ (AI_scoredAux (AI_value d) pl att b
            (construct_candidates b pl)).1.map Prod.snd :=
          List.mem_map_of_mem Prod.snd hy
        constructor
        · intro hpl
          subst hpl
          rw [hxbest2]
          exact bestVal_white_ge hymem
        · intro hpl
          subst hpl
          rw [hxbest2]
          exact bestVal_black_le hymem

theorem C4_witness :
    ¬ (1 : Nat) = 0 ∧ ¬ construct_candidates initBoard .white = [] ∧
    (¬ (AI_choose_set initBoard .white 1 (3 / 4)).1 = [] ∧
     ∀ x ∈ (AI_choose_set initBoard .white 1 (3 / 4)).1,
      x.1 ∈ construct_candidates initBoard .white ∧
      x.2 ∈ (AI_scoredAux (AI_value 0) .white (3 / 4) initBoard
        (construct_candidates initBoard .white)).1.map Prod.snd ∧
      ∀ y ∈ (AI_scoredAux (AI_value 0) .white (3 / 4) initBoard
          (construct_candidates initBoard .white)).1,
        (Player.white = .white → y.2 ≤ x.2) ∧ (Player.white = .black → x.2 ≤ y.2)) :=
  ⟨by decide, by decide,
   C4_best_move initBoard .white 1 (3 / 4) (by decide) (by decide)⟩

/-- Claim C5: AI_choose_move explores by mutating the board but always reverts:
when the call returns, the board is observationally identical to its state
at the moment of the call. -/
theorem C5_search_returns_board (b : Board) (pl : Player) (depth : Nat) (att : ℚ)
    (hc : Consistent b = true) : ObsEq (AI_choose_set b pl depth att).2 b :=
  AI_choose_set_preserve b pl depth att hc

theorem C5_witness :
    Consistent initBoard = true ∧
    ObsEq (AI_choose_set initBoard .white 2 (3 / 4)).2 initBoard :=
  ⟨by decide, C5_search_returns_board initBoard .white 2 (3 / 4) (by decide)⟩

/-- Claim C8: with depth 0, or with no candidate moves at any depth, the search
returns the null move (origin none) with score change 0, leaving the board
untouched, and raises no error (the function is total). -/
theorem C8_base_cases (b : Board) (pl : Player) (att : ℚ) :
    AI_choose_set b pl 0 att = ([({}, 0)], b) ∧
    (construct_candidates b pl = [] →
      ∀ depth, AI_choose_set b pl depth att = ([({}, 0)], b)) := by
  constructor
  · rfl
  · intro hcand depth
    cases depth with
    | zero => rfl
    | succ d =>
      simp only [AI_choose_set]
      rw [if_pos (by rw [hcand]; rfl)]

theorem C8_witness :
    construct_candidates lonelyBoard .black = [] ∧
    AI_choose_set lonelyBoard .black 5 (3 / 4) = ([({}, 0)], lonelyBoard) :=
  ⟨by decide, (C8_base_cases lonelyBoard .black (3 / 4)).2 (by decide) 5⟩

/-- Claim C9: every generated move whose destination is occupied captures a piece
of the opposite side; no generated move list ever contains a move onto a
square holding a same-side piece. -/
theorem C9_no_friendly_capture (b : Board) (pid : PieceId)
    (hg : b.grid (b.pieceData pid).pos = some pid) (m : Move) (hm : m ∈ get_moves b pid) :
    ∀ q, m.destination_piece = some q →
      ¬ (b.pieceData q).player = (b.pieceData pid).player := by
  obtain ⟨dpos, hmeq, _, _, henemy⟩ := get_moves_char hg hm
  intro q hq
  rw [hmeq] at hq
  exact henemy q (by simpa [mkMove] using hq)

theorem C9_witness :
    bD.grid (bD.pieceData 25).pos = some 25 ∧ mE ∈ get_moves bD 25 ∧
    ∀ q, mE.destination_piece = some q →
      ¬ (bD.pieceData q).player = (bD.pieceData 25).player :=
  ⟨by decide, by decide, C9_no_friendly_capture bD 25 (by decide) mE (by decide)⟩

/-- Claim C10: the recursive call of the search takes no attenuation argument (it
always runs at the default 3/4), so a caller-supplied attenuation discounts
only the first ply: the board evolution and returned moves are independent
of it, and every candidate score is an affine function of it whose slope
(the continuation value) does not depend on it. -/
theorem C10_attenuation_first_ply_only (b : Board) (pl : Player) (d : Nat) (att : ℚ)
    (cs : List Move) :
    (AI_scoredAux (AI_value d) pl att b cs).2 = (AI_scoredAux (AI_value d) pl 0 b cs).2 ∧
    (AI_scoredAux (AI_value d) pl att b cs).1.map Prod.fst =
      (AI_scoredAux (AI_value d) pl 0 b cs).1.map Prod.fst ∧
    (AI_scoredAux (AI_value d) pl att b cs).1.map Prod.snd =
      List.zipWith (fun s0 s1 => s0 + att * (s1 - s0))
        ((AI_scoredAux (AI_value d) pl 0 b cs).1.map Prod.snd)
        ((AI_scoredAux (AI_value d) pl 1 b cs).1.map Prod.snd) :=
  AI_scoredAux_att (AI_value d) pl att cs b

/-- Claim C7: moving a pawn onto its terminal rank flips its behaviour to queen,
changes the score by exactly plus 16 for White and minus 16 for Black beyond
the capture adjustment, marks the move as promoting, and the matching
unmake reverts the behaviour to pawn and restores the original score. -/
theorem C7_promotion (b : Board) (m : Move) (o dpos : Pos) (opid : PieceId)
    (ho : m.origin = some o) (hd : m.destination = some dpos)
    (hop : m.origin_piece = some opid)
    (hkind : (b.pieceData opid).kind = .pawn)
    (hpc : m.pawn_change = false)
    (hne : ¬ m.destination_piece = some opid)
    (hterm : dpos.2 = (match (b.pieceData opid).player with | .white => 7 | .black => 0)) :
    ((make_move b m).1.pieceData opid).kind = .queen ∧
    (make_move b m).2.pawn_change = true ∧
    (make_move b m).1.score = b.score +
      (match (b.pieceData opid).player with | .white => 16 | .black => -16) -
      (match m.destination_piece with
       | some qid => pieceValue (b.pieceData qid)
       | none => 0) ∧
    ((unmake_move (make_move b m).1 (make_move b m).2).1.pieceData opid).kind = .pawn ∧
    (unmake_move (make_move b m).1 (make_move b m).2).1.score = b.score := by
  rcases m with ⟨mo, mop, md, mdp, mpc⟩
  simp only [Move.origin, Move.destination, Move.origin_piece, Move.pawn_change,
    Move.destination_piece] at ho hd hop hpc hne ⊢
  subst ho hd hop hpc
  cases hply : (b.pieceData opid).player
  · rw [hply] at hterm
    dsimp only at hterm
    rcases mdp with _ | qid
    · refine ⟨?_, ?_, ?_, ?_, ?_⟩ <;>
        simp [make_move, unmake_move, hkind, hply, hterm, dataSet_same]
    · have hqne : ¬ qid = opid := fun h => hne (by rw [h])
      refine ⟨?_, ?_, ?_, ?_, ?_⟩ <;>
        simp [make_move, unmake_move, hkind, hply, hterm, dataSet_same,
          dataSet_ne _ _ hqne] <;> omega
  · rw [hply] at hterm
    dsimp only at hterm
    rcases mdp with _ | qid
    · refine ⟨?_, ?_, ?_, ?_, ?_⟩ <;>
        (simp [make_move, unmake_move, hkind, hply, hterm, dataSet_same]; try omega)
    · have hqne : ¬ qid = opid := fun h => hne (by rw [h])
      refine ⟨?_, ?_, ?_, ?_, ?_⟩ <;>
        simp [make_move, unmake_move, hkind, hply, hterm, dataSet_same,
          dataSet_ne _ _ hqne] <;> omega

theorem C7_witness :
    promoMove.origin = some (0, 6) ∧ promoMove.destination = some (0, 7) ∧
    promoMove.origin_piece = some 0 ∧ (promoBoard.pieceData 0).kind = .pawn ∧
    promoMove.pawn_change = false ∧ ¬ promoMove.destination_piece = some 0 ∧
    (((make_move promoBoard promoMove).1.pieceData 0).kind = .queen ∧
     (make_move promoBoard promoMove).2.pawn_change = true ∧
     (make_move promoBoard promoMove).1.score = promoBoard.score +
       (match (promoBoard.pieceData 0).player with | .white => 16 | .black => -16) -
       (match promoMove.destination_piece with
        | some qid => pieceValue (promoBoard.pieceData qid)
        | none => 0) ∧
     ((unmake_move (make_move promoBoard promoMove).1
         (make_move promoBoard promoMove).2).1.pieceData 0).kind = .pawn ∧
     (unmake_move (make_move promoBoard promoMove).1
         (make_move promoBoard promoMove).2).1.score = promoBoard.score) :=
  ⟨by decide, by decide, by decide, by decide, by decide, by decide,
   C7_promotion promoBoard promoMove (0, 6) (0, 7) 0 (by decide) (by decide) (by decide)
     (by decide) (by decide) (by decide) (by decide)⟩

/-- Claim C6 (amended): a pawn's double-step move is generated exactly when the
pawn stands on its original starting rank AND both the intervening
single-step square and the double-step destination are in bounds and empty.
The pawn validity predicate itself checks only the starting rank, but the
direction walk stops at a blocked or invalid single step, so a non-empty
intervening square suppresses the double-step.  A pawn not on its starting
rank never generates a double-step. -/
theorem C6_double_step_iff (b : Board) (pid : PieceId) (pl : Player) (x y : Int)
    (hkind : (b.pieceData pid).kind = .pawn)
    (hpl : (b.pieceData pid).player = pl)
    (hpos : (b.pieceData pid).pos = (x, y))
    (hg : b.grid (x, y) = some pid) :
    (match pl with
     | .white =>
        (∃ m ∈ get_moves b pid, m.destination = some (x, y + 2)) ↔
          (y = 1 ∧ inbounds (x, y + 2) = true ∧
           b.grid (x, y + 1) = none ∧ b.grid (x, y + 2) = none)
     | .black =>
        (∃ m ∈ get_moves b pid, m.destination = some (x, y + -2)) ↔
          (y = 6 ∧ inbounds (x, y + -2) = true ∧
           b.grid (x, y + -1) = none ∧ b.grid (x, y + -2) = none)) := by
  have hvcap1 : ∀ w : Int, is_valid_move .pawn (0, w) (b.pieceData pid).pos false = false := by
    intro w
    simp [is_valid_move]
  cases pl with
  | white =>
    dsimp only
    have hv1 : is_valid_move .pawn (0, 1) (b.pieceData pid).pos true = true := by
      simp [is_valid_move]
    unfold get_moves
    rw [hpos, hg, hkind, hpl]
    simp only [pieceDirections, List.flatMap_cons, List.flatMap_nil, List.append_nil]
    constructor
    · rintro ⟨m, hmem, hdest⟩
      rcases List.mem_append.mp hmem with h1 | h23
      · obtain ⟨v, hv, hmeq, _, _⟩ := walkDir_mem h1
        simp only [List.mem_singleton] at hv
        subst hv
        rw [hmeq] at hdest
        simp only [mkMove] at hdest
        simp at hdest
      rcases List.mem_append.mp h23 with h2 | h3
      swap
      · obtain ⟨v, hv, hmeq, _, _⟩ := walkDir_mem h3
        simp only [List.mem_singleton] at hv
        subst hv
        rw [hmeq] at hdest
        simp only [mkMove] at hdest
        simp at hdest
      · simp only [walkDir, add_zero] at h2
        cases hin1 : inbounds (x, y + 1) with
        | false =>
          rw [hin1] at h2
          simp at h2
        | true =>
          rw [hin1] at h2
          simp only [Bool.true_eq_false, if_false] at h2
          rcases hg1 : b.grid (x, y + 1) with _ | q1
          · rw [hg1] at h2
            simp only [hv1, Bool.true_eq_false, if_false] at h2
            rcases List.mem_cons.mp h2 with heq | h2b
            · rw [heq] at hdest
              simp at hdest
            · cases hin2 : inbounds (x, y + 2) with
              | false =>
                rw [hin2] at h2b
                simp at h2b
              | true =>
                rw [hin2] at h2b
                simp only [Bool.true_eq_false, if_false] at h2b
                rcases hg2 : b.grid (x, y + 2) with _ | q2
                · by_cases hr : y = 1
                  · exact ⟨hr, rfl, rfl, rfl⟩
                  · have hv2f : is_valid_move .pawn (0, 2) (b.pieceData pid).pos true = false := by
                      simp [is_valid_move, hpos, hr]
                    rw [hg2] at h2b
                    simp [hv2f] at h2b
                · rw [hg2] at h2b
                  simp [hvcap1 2] at h2b
          · rw [hg1] at h2
            simp [hvcap1 1] at h2
    · rintro ⟨hr, hin2, hg1, hg2⟩
      have hin1 : inbounds (x, y + 1) = true := by
        rw [inbounds_iff] at hin2 ⊢
        dsimp only at hin2 ⊢
        omega
      have hv2t : is_valid_move .pawn (0, 2) (b.pieceData pid).pos true = true := by
        simp [is_valid_move, hpos, hr]
      refine ⟨{ origin := some (x, y), origin_piece := some pid,
                destination := some (x, y + 2), destination_piece := none }, ?_, rfl⟩
      rw [List.mem_append]
      right
      rw [List.mem_append]
      left
      simp [walkDir, add_zero, hin1, hg1, hin2, hg2, hv1, hv2t]
  | black =>
    dsimp only
    have hv1 : is_valid_move .pawn (0, -1) (b.pieceData pid).pos true = true := by
      simp [is_valid_move]
    unfold get_moves
    rw [hpos, hg, hkind, hpl]
    simp only [pieceDirections, List.flatMap_cons, List.flatMap_nil, List.append_nil]
    constructor
    · rintro ⟨m, hmem, hdest⟩
      rcases List.mem_append.mp hmem with h1 | h23
      · obtain ⟨v, hv, hmeq, _, _⟩ := walkDir_mem h1
        simp only [List.mem_singleton] at hv
        subst hv
        rw [hmeq] at hdest
        simp only [mkMove] at hdest
        simp at hdest
      rcases List.mem_append.mp h23 with h2 | h3
      swap
      · obtain ⟨v, hv, hmeq, _, _⟩ := walkDir_mem h3
        simp only [List.mem_singleton] at hv
        subst hv
        rw [hmeq] at hdest
        simp only [mkMove] at hdest
        simp at hdest
      · simp only [walkDir, add_zero] at h2
        cases hin1 : inbounds (x, y + -1) with
        | false =>
          rw [hin1] at h2
          simp at h2
        | true =>
          rw [hin1] at h2
          simp only [Bool.true_eq_false, if_false] at h2
          rcases hg1 : b.grid (x, y + -1) with _ | q1
          · rw [hg1] at h2
            simp only [hv1, Bool.true_eq_false, if_false] at h2
            rcases List.mem_cons.mp h2 with heq | h2b
            · rw [heq] at hdest
              simp at hdest
            · cases hin2 : inbounds (x, y + -2) with
              | false =>
                rw [hin2] at h2b
                simp at h2b
              | true =>
                rw [hin2] at h2b
                simp only [Bool.true_eq_false, if_false] at h2b
                rcases hg2 : b.grid (x, y + -2) with _ | q2
                · by_cases hr : y = 6
                  · exact ⟨hr, rfl, rfl, rfl⟩
                  · have hv2f : is_valid_move .pawn (0, -2) (b.pieceData pid).pos true = false := by
                      simp [is_valid_move, hpos, hr]
                    rw [hg2] at h2b
                    simp [hv2f] at h2b
                · rw [hg2] at h2b
                  simp [hvcap1 (-2)] at h2b
          · rw [hg1] at h2
            simp [hvcap1 (-1)] at h2
    · rintro ⟨hr, hin2, hg1, hg2⟩
      have hin1 : inbounds (x, y + -1) = true := by
        rw [inbounds_iff] at hin2 ⊢
        dsimp only at hin2 ⊢
        omega
      have hv2t : is_valid_move .pawn (0, -2) (b.pieceData pid).pos true = true := by
        simp [is_valid_move, hpos, hr]
      refine ⟨{ origin := some (x, y), origin_piece := some pid,
                destination := some (x, y + -2), destination_piece := none }, ?_, rfl⟩
      rw [List.mem_append]
      right
      rw [List.mem_append]
      left
      simp [walkDir, add_zero, hin1, hg1, hin2, hg2, hv1, hv2t]

theorem C6_witness :
    (initBoard.pieceData 11).kind = .pawn ∧ (initBoard.pieceData 11).player = .white ∧
    (initBoard.pieceData 11).pos = (3, 1) ∧ initBoard.grid (3, 1) = some 11 ∧
    ((∃ m ∈ get_moves initBoard 11, m.destination = some (3, (1 : Int) + 2)) ↔
      ((1 : Int) = 1 ∧ inbounds (3, (1 : Int) + 2) = true ∧
       initBoard.grid (3, (1 : Int) + 1) = none ∧ initBoard.grid (3, (1 : Int) + 2) = none)) :=
  ⟨by decide, by decide, by decide, by decide,
   C6_double_step_iff initBoard 11 .white 3 1 (by decide) (by decide) (by decide) (by decide)⟩

/-- Claim C6 (counterexample to the claim as stated): on board cC the white pawn 11
stands on its starting rank, the double-step destination (3,3) is in bounds,
empty (hence not occupied by a friendly piece) and passes the pawn validity
predicate, yet no move to (3,3) is generated, because the intervening square
(3,2) is occupied and the direction walk stops there. -/
theorem C6_counterexample :
    (cC.pieceData 11).kind = .pawn ∧ (cC.pieceData 11).player = .white ∧
    (cC.pieceData 11).pos = (3, 1) ∧ cC.grid (3, 1) = some 11 ∧
    inbounds (3, 3) = true ∧ cC.grid (3, 3) = none ∧
    is_valid_move .pawn (0, 2) (cC.pieceData 11).pos true = true ∧
    cC.grid (3, 2) = some 19 ∧
    ¬ (∃ m ∈ get_moves cC 11, m.destination = some (3, 3)) := by
  refine ⟨?_, ?_, ?_, ?_, ?_, ?_, ?_, ?_, ?_⟩ <;> decide

/-- Claim C2 (divergence): the board bE is reachable from the initial position by
five legal alternating moves, its white king stands on (4,0), and the black
knight 25 on (2,1) has a generated move capturing that king; yet check_check
reports White as not in check, because the knight offset scan hits the
friendly pawn on (6,1) at its first offset and the Python loop then breaks
out of the entire scan. -/
theorem C2_check_check_divergence :
    Reach (bE, [(make_move bD mE).2, (make_move bC mD).2, (make_move bB mC).2,
      (make_move bA mB).2, (make_move initBoard mA).2]) ∧
    25 ∈ bE.pieces .black ∧
    mKing ∈ get_moves bE 25 ∧
    mKing.destination = some ((bE.pieceData (bE.kings .white)).pos) ∧
    mKing.destination_piece = some (bE.kings .white) ∧
    check_check bE .white = false := by
  refine ⟨?_, by decide, by decide, by decide, by decide, by decide⟩
  have h1 : Reach ((make_move initBoard mA).1, [(make_move initBoard mA).2]) :=
    Relation.ReflTransGen.single (Tr.make initBoard [] .black 25 mA (by decide) (by decide))
  have h2 := Relation.ReflTransGen.tail h1
    (Tr.make bA [(make_move initBoard mA).2] .white 6 mB (by decide) (by decide))
  have h3 := Relation.ReflTransGen.tail h2
    (Tr.make bB [(make_move bA mB).2, (make_move initBoard mA).2] .black 25 mC
      (by decide) (by decide))
  have h4 := Relation.ReflTransGen.tail h3
    (Tr.make bC [(make_move bB mC).2, (make_move bA mB).2, (make_move initBoard mA).2]
      .white 6 mD (by decide) (by decide))
  exact Relation.ReflTransGen.tail h4
    (Tr.make bD [(make_move bC mD).2, (make_move bB mC).2, (make_move bA mB).2,
      (make_move initBoard mA).2] .black 25 mE (by decide) (by decide))
